import Mathlib

/-!
The weighted sampler and the event scheduler of gen-iolog.

A shallow embedding of `gen-iolog.cpp` (`generate_distribution`, `generate_iolog`).

* `double` arithmetic is read over exact rationals (`ℚ`) in `generate_distribution`;
  `generate_distribution_double` is the same table with every operation rounded to a
  `double` (`to_double`).
* `std::map<double, Player_t&>` is a key-sorted association list whose values are
  indices into `all_players` (the references of the source).
* `std::multimap<int64_t, std::shared_ptr<Playback_t>>` is a key-sorted list in which
  entries with equal keys keep insertion order.
* `Player_t`, `Playback_t` and `Playback_objects_t` are declared in `model.h`, which is
  not part of the sources at hand; what the generator needs of them is either a
  parameter (`Env`) or modelled from the specification, as noted on each definition.
-/

namespace GenIolog

/-! ## Workload models and the distribution table -/

/-- Modelled from the spec: `Player_t` of `model.h`, seen through its two getters
`get_length()` and `get_object_count()`. -/
structure Player_t where
  length : Nat
  object_count : Nat
deriving DecidableEq, Repr

/-- The table type `std::map<double, Player_t&>`: sorted by key, one entry per key. -/
abbrev Distribution := List (ℚ × Nat)

/-- The member `std::map::emplace`: inserts in key order; a key already present keeps its entry. -/
def map_emplace (k : ℚ) (x : Nat) : Distribution → Distribution
  | [] => [(k, x)]
  | e :: rest =>
    if k < e.1 then (k, x) :: e :: rest
    else if k = e.1 then e :: rest
    else e :: map_emplace k x rest

/-- First loop of `generate_distribution`: the largest length (`total_length`, which the
loop also sums up, is not used afterwards). -/
def max_length_of (all_players : List Player_t) : Nat :=
  all_players.foldl (fun max_length x => if max_length < x.length then x.length else max_length) 0

/-- Second loop of `generate_distribution`: `sump += (double)max_length / length`. -/
def sump_of (max_length : Nat) (all_players : List Player_t) : ℚ :=
  all_players.foldl (fun sump x => sump + (max_length : ℚ) / (x.length : ℚ)) 0

/-- The weight of the third loop: `w = (double)max_length / length / sump`. -/
def weight (max_length : Nat) (sump : ℚ) (x : Player_t) : ℚ :=
  (max_length : ℚ) / (x.length : ℚ) / sump

/-- Third loop of `generate_distribution`: `distribution.emplace(c, x); c += w;`
for each player `x` (here: its index `i`), in order. -/
def distribution_loop (max_length : Nat) (sump : ℚ) :
    List Player_t → Nat → ℚ → Distribution → Distribution
  | [], _, _, distribution => distribution
  | x :: xs, i, c, distribution =>
    distribution_loop max_length sump xs (i + 1) (c + weight max_length sump x)
      (map_emplace c i distribution)

/-- The table built by `generate_distribution` from `all_players`. -/
def generate_distribution (all_players : List Player_t) : Distribution :=
  let max_length := max_length_of all_players
  let sump := sump_of max_length all_players
  distribution_loop max_length sump all_players 0 0 []

/-- The member `std::map::lower_bound(v)`: the entries from the first key that is not less than `v`
onwards (`[]` is `end()`). -/
def lower_bound (v : ℚ) (distribution : Distribution) : Distribution :=
  distribution.dropWhile (fun e => decide (e.1 < v))

/-- The sampling step of `generate_iolog` for the draw `v`:
`it = lower_bound(v); if (it == end()) it--; next_player = &it->second`.
`none` stands for the undefined `it--` on an empty table. -/
def select_player (distribution : Distribution) (v : ℚ) : Option Nat :=
  match lower_bound v distribution with
  | e :: _ => some e.2
  | [] => distribution.getLast?.map (fun e => e.2)

/-- The specification's `sample(u)`: the model attached to the greatest boundary that
is `≤ u`, i.e. the model whose interval contains `u`. -/
def interval_player (distribution : Distribution) (u : ℚ) : Option Nat :=
  (distribution.takeWhile (fun e => decide (e.1 ≤ u))).getLast?.map (fun e => e.2)

/-- The cumulative table that a list of weights describes, starting at boundary `c`
with model index `i`. -/
def cumulative (ws : List ℚ) (i : Nat) (c : ℚ) : Distribution :=
  match ws with
  | [] => []
  | w :: rest => (c, i) :: cumulative rest (i + 1) (c + w)

/-! ## The table in `double` arithmetic -/

/-- Rounding of a rational to the nearest integer, ties to the even one. -/
def round_half_even (m : ℚ) : Int :=
  if m - (Rat.floor m : ℚ) < 1 / 2 then Rat.floor m
  else if 1 / 2 < m - (Rat.floor m : ℚ) then Rat.floor m + 1
  else if Rat.floor m % 2 = 0 then Rat.floor m
  else Rat.floor m + 1

/-- The loop that counts how often `n` can be halved before it drops below 2. -/
def floor_log2_loop : Nat → Nat → Nat
  | 0, _ => 0
  | fuel + 1, n => if n < 2 then 0 else floor_log2_loop fuel (n / 2) + 1

/-- The position of the leading bit of `n` (the same number as `Nat.log2 n`). -/
def floor_log2 (n : Nat) : Nat :=
  floor_log2_loop n n

/-- The exponent `e` with `2 ^ 52 ≤ |q| / 2 ^ e < 2 ^ 53`, for `q ≠ 0`: the weight of the last
of the 53 bits of the significand of the `double` nearest to `q`. The difference of the
leading bit positions of numerator and denominator is that of `q` or one more. -/
def double_exponent (q : ℚ) : Int :=
  let e0 : Int := (floor_log2 q.num.natAbs : Int) - (floor_log2 q.den : Int) - 52
  if |q| < 2 ^ 52 * (2 : ℚ) ^ e0 then e0 - 1 else e0

/-- The `double` that an arithmetic operation with the exact result `q` yields: `q` rounded
to 53 significant bits, to nearest, ties to even (IEEE 754 binary64 in its normal range;
overflow and subnormal numbers, which the weights of non-zero lengths do not reach, are
left out). -/
def to_double (q : ℚ) : ℚ :=
  if q = 0 then 0
  else (round_half_even (q / (2 : ℚ) ^ double_exponent q) : ℚ) * (2 : ℚ) ^ double_exponent q

/-- Modelled from the spec: `Playback_objects_t` of `model.h`, the object pool: a name
prefix and the names handed out so far; a fresh pool has no names. -/
structure Playback_objects_t where
  pfx : String
  names : List String
deriving DecidableEq, Repr

/-- The pool's `names_count()`: the number of distinct object names in use. -/
def Playback_objects_t.names_count (pool : Playback_objects_t) : Nat :=
  pool.names.length

/-- Modelled from the spec: `Playback_t` of `model.h`, a cursor into the instance's own
operation sequence. `events` holds the times of the events not yet emitted, `player` is
the index of the originating model, and `id` is the ordinal of the admission that created
the instance (it stands for the identity of the shared pointer). -/
structure Playback_t where
  id : Nat
  player : Nat
  events : List Nat
deriving DecidableEq, Repr

/-- The call `blktrace_get_next_time(t)`: the time of the pending event, `none` for
`false`. -/
def Playback_t.blktrace_get_next_time (pb : Playback_t) : Option Nat :=
  pb.events.head?

/-- The call `blktrace_get_commands(commands)`: emits the pending event and advances the
cursor; `false` when there is no pending event. -/
def Playback_t.blktrace_get_commands (pb : Playback_t) : Bool × Playback_t :=
  match pb.events with
  | [] => (false, pb)
  | _ :: later => (true, { pb with events := later })

/-- The member functions of `Playback_t` that `generate_iolog` calls; `destructor` is the
destruction of an instance when its last shared pointer leaves the active set. -/
inductive Call where
  | blktrace_get_next_time
  | blktrace_open
  | blktrace_get_commands
  | blktrace_close
  | destructor
deriving DecidableEq, Repr

/-- What `generate_iolog` takes from outside: the loaded models, the stream of `rand()`
results with `RAND_MAX`, whether the named output file opens, the constructor of
`Playback_t` (given the model index, the pool and the admission time it yields the time of
the first event, the times of the later events, and the pool as it leaves it), and what
each member function of a playback instance does to the shared pool. -/
structure Env where
  all_players : List Player_t
  RAND_MAX : Nat
  rand : Nat → Nat
  foutput_good : String → Bool
  Playback_new : Nat → Playback_objects_t → Nat → (Nat × List Nat) × Playback_objects_t
  pool_effect : Call → Playback_t → Playback_objects_t → Playback_objects_t

/-! ## The active set -/

/-- Conversion of a `uint64_t` time to the `int64_t` key of the active set. -/
def to_int64 (t : Nat) : Int :=
  if t % 2 ^ 64 < 2 ^ 63 then ((t % 2 ^ 64 : Nat) : Int) else ((t % 2 ^ 64 : Nat) : Int) - 2 ^ 64

/-- Conversion of an `int64_t` key to the `uint64_t` variable `next_time`. -/
def to_uint64 (k : Int) : Nat :=
  (k % 2 ^ 64).toNat

/-- The type `std::multimap<int64_t, std::shared_ptr<Playback_t>>`. -/
abbrev ActivePlayers := List (Int × Playback_t)

/-- The member `std::multimap::emplace`: inserts in key order, behind the entries with the
same key. -/
def mm_emplace (k : Int) (pb : Playback_t) : ActivePlayers → ActivePlayers
  | [] => [(k, pb)]
  | e :: rest => if k < e.1 then (k, pb) :: e :: rest else e :: mm_emplace k pb rest

/-! ## The generator loop -/

/-- One chunk written to the output stream: the header line `fio version 2 iolog`, or the
commands of one call on the instance `id` (for a drain batch also the key the entry was
removed at). -/
inductive Batch where
  | header
  | opened (id : Nat)
  | commands (id : Nat) (key : Int)
  | closed (id : Nat)
deriving DecidableEq, Repr

/-- The local state of `generate_iolog` while the loop runs. `rand_calls` counts the calls
of `rand()` made so far, `admitted` the playback instances created so far. -/
structure State where
  output : List Batch
  object_pool : Playback_objects_t
  next_player : Option Nat
  next_time : Nat
  rand_calls : Nat
  admitted : Nat
  active_players : ActivePlayers
deriving DecidableEq, Repr

/-- Lines 122-128: sample a candidate unless one is pending. -/
def sample_step (E : Env) (distribution : Distribution) (s : State) : Option State :=
  match s.next_player with
  | some _ => some s
  | none =>
    let v : ℚ := (E.rand s.rand_calls : ℚ) / (E.RAND_MAX : ℚ)
    match select_player distribution v with
    | none => none
    | some i => some { s with next_player := some i, rand_calls := s.rand_calls + 1 }

/-- Line 131: `next_time = active_players.size() ? active_players.begin()->first : 0`. -/
def admission_time (active_players : ActivePlayers) : Nat :=
  match active_players with
  | [] => 0
  | first :: _ => to_uint64 first.1

/-- Lines 130-140: admit the candidate if the pool has room for its objects.
`none` stands for undefined behaviour (no candidate, a dangling reference, or reading
`next_op` when the new instance reports no event). -/
def admit_step (E : Env) (max_object_count : Nat) (s : State) : Option State :=
  match s.next_player with
  | none => none
  | some i =>
    match E.all_players[i]? with
    | none => none
    | some x =>
      if s.object_pool.names_count + x.object_count ≤ max_object_count then
        let next_time := admission_time s.active_players
        let created := E.Playback_new i s.object_pool next_time
        let pb : Playback_t :=
          { id := s.admitted, player := i, events := created.1.1 :: created.1.2 }
        match pb.blktrace_get_next_time with
        | none => none
        | some next_op =>
          let pool1 := E.pool_effect Call.blktrace_get_next_time pb created.2
          some { output := s.output ++ [Batch.opened pb.id]
                 object_pool := E.pool_effect Call.blktrace_open pb pool1
                 next_player := none
                 next_time := next_time
                 rand_calls := s.rand_calls
                 admitted := s.admitted + 1
                 active_players := mm_emplace (to_int64 next_op) pb s.active_players }
      else some s

/-- Lines 142-150: emit the pending event of the first entry of the active set and move
the entry to its next time, or drop it. The `assert` is taken as compiled in (no `NDEBUG`);
`none` stands for its failure. The new entry is emplaced before the old one is erased, so
the erased position is 1 if the new entry went in front of it and 0 otherwise. -/
def drain_step (E : Env) (s : State) : Option State :=
  match s.active_players with
  | [] => some s
  | first :: rest =>
    match first.2.blktrace_get_commands with
    | (false, _) => none
    | (true, pb) =>
      let pool1 := E.pool_effect Call.blktrace_get_commands pb s.object_pool
      let pool2 := E.pool_effect Call.blktrace_get_next_time pb pool1
      let output := s.output ++ [Batch.commands pb.id first.1]
      match pb.blktrace_get_next_time with
      | some t =>
        let key := to_int64 t
        some { s with
          output := output
          object_pool := pool2
          next_time := t % 2 ^ 64
          active_players :=
            (mm_emplace key pb (first :: rest)).eraseIdx (if key < first.1 then 1 else 0) }
      | none =>
        some { s with
          output := output
          object_pool := E.pool_effect Call.destructor pb pool2
          active_players := rest }

/-- The body of the `do ... while` loop. -/
def body (E : Env) (distribution : Distribution) (max_object_count : Nat) (s : State) :
    Option State :=
  (sample_step E distribution s).bind fun s1 =>
    (admit_step E max_object_count s1).bind fun s2 => drain_step E s2

/-- The state after `n` executions of the loop body. -/
def iterate (E : Env) (distribution : Distribution) (max_object_count : Nat) :
    Nat → State → Option State
  | 0, s => some s
  | n + 1, s => (body E distribution max_object_count s).bind
      (iterate E distribution max_object_count n)

/-- How the loop ends. -/
inductive Loop where
  | out_of_fuel
  | aborted
  | exited (s : State)
deriving DecidableEq, Repr

/-- The loop `do { body } while (infinite || --operation_count > 0)`, with `size_t` of 64
bits; `fuel` bounds the number of iterations that are unfolded. -/
def do_while (E : Env) (distribution : Distribution) (max_object_count : Nat) :
    Nat → Bool → Nat → State → Loop
  | 0, _, _, _ => Loop.out_of_fuel
  | fuel + 1, infinite, operation_count, s =>
    match body E distribution max_object_count s with
    | none => Loop.aborted
    | some s1 =>
      if infinite then do_while E distribution max_object_count fuel infinite operation_count s1
      else
        let operation_count1 := (operation_count + 2 ^ 64 - 1) % 2 ^ 64
        if operation_count1 > 0 then
          do_while E distribution max_object_count fuel infinite operation_count1 s1
        else Loop.exited s1

/-- Lines 153-158: the close batch of every entry left in the active set, in map order. -/
def close_on_finish (active_players : ActivePlayers) : List Batch :=
  active_players.map fun x => Batch.closed x.2.id

/-- The state in which the loop is entered: the header is written, the pool is fresh. -/
def initial_state (pfx : String) : State :=
  { output := [Batch.header]
    object_pool := { pfx := pfx, names := [] }
    next_player := none
    next_time := 0
    rand_calls := 0
    admitted := 0
    active_players := [] }

/-- What a call of `generate_iolog` comes to. -/
inductive Result where
  | out_of_fuel
  | aborted
  | returned (value : Bool) (output : List Batch)
deriving DecidableEq, Repr

/-- The function `generate_iolog(output_name, prefix, operation_count, max_object_count)`. -/
def generate_iolog (E : Env) (fuel : Nat) (output_name pfx : String)
    (operation_count max_object_count : Nat) : Result :=
  if output_name ≠ "" ∧ E.foutput_good output_name = false then Result.returned false []
  else
    let distribution := generate_distribution E.all_players
    let infinite := operation_count == 0
    match do_while E distribution max_object_count fuel infinite operation_count
        (initial_state pfx) with
    | Loop.out_of_fuel => Result.out_of_fuel
    | Loop.aborted => Result.aborted
    | Loop.exited s => Result.returned true (s.output ++ close_on_finish s.active_players)

/-- The keys of the drain batches of an output, in the order they were written. -/
def drained_keys : List Batch → List Int
  | [] => []
  | Batch.commands _ key :: rest => key :: drained_keys rest
  | _ :: rest => drained_keys rest

/-! ## Loading the models -/

/-- What `load_models` and `main` take from outside: `strtol` (for a string, the value and
whether the whole string was consumed, `*endp == 0`), `fopen` for reading (the bytes of the
file, `none` for a null `FILE*`), and `Player_t::load` of `model.h` (for the bytes that are
left in the stream: whether the load succeeds, the player it leaves, the bytes left after
it). -/
structure Sys where
  strtol : String → Int × Bool
  fopen : String → Option (List Nat)
  Player_load : List Nat → Bool × Player_t × List Nat

/-- How a call of `load_models` ends; `undefined` stands for `fgetc` on a null `FILE*`. -/
inductive Loaded where
  | out_of_fuel
  | undefined
  | returned (result : Bool) (all_players : List Player_t)
deriving DecidableEq, Repr

/-- Lines 40-51, the loop of `load_models`: stop at the end of the stream, otherwise put
the character back, load a player, clear `result` if that failed, and push the player. -/
def load_models_loop (S : Sys) : Nat → List Nat → Bool → List Player_t → Loaded
  | 0, _, _, _ => Loaded.out_of_fuel
  | _ + 1, [], result, all_players => Loaded.returned result all_players
  | fuel + 1, ch :: rest, result, all_players =>
    let loaded := S.Player_load (ch :: rest)
    load_models_loop S fuel loaded.2.2 (if loaded.1 = false then false else result)
      (all_players ++ [loaded.2.1])

/-- The function `load_models(models)`, which appends to the global `all_players`. -/
def load_models (S : Sys) (fuel : Nat) (models : String) (all_players : List Player_t) :
    Loaded :=
  match S.fopen models with
  | none => Loaded.undefined
  | some f => load_models_loop S fuel f true all_players

/-- The specification's reading of a model file: the records are loaded one after the other
until the end of the file, whether or not a load fails; for each attempt, whether it
succeeded and the player it left (`none` when `fuel` attempts do not reach the end). -/
def load_attempts (S : Sys) : Nat → List Nat → Option (List (Bool × Player_t))
  | 0, _ => none
  | _ + 1, [] => some []
  | fuel + 1, ch :: rest =>
    (load_attempts S fuel (S.Player_load (ch :: rest)).2.2).map fun attempts =>
      ((S.Player_load (ch :: rest)).1, (S.Player_load (ch :: rest)).2.1) :: attempts

/-! ## The command line -/

/-- The local variables of `main` that the argument scan sets. -/
structure Options where
  models : String
  object_count : Nat
  operation_count : Nat
  output_name : String
  pfx : String
deriving DecidableEq, Repr

/-- The initial values of these variables (lines 175-179). -/
def default_options : Options :=
  { models := "", object_count := 1000, operation_count := 1000000, output_name := "",
    pfx := "rbd_data." }

/-- The set `oneparam_args` of line 182. -/
def oneparam_args : List String :=
  ["-m", "--model", "--obs", "--objects", "--ops", "--operations", "-o", "-p", "--prefix"]

/-- Conversion of the `long` that `strtol` returns to `size_t` (64 bits). -/
def to_size_t (v : Int) : Nat :=
  (v % 2 ^ 64).toNat

/-- How the argument scan of `main` ends: the process exits with a status (after printing
the usage text or not), or the scan completes. -/
inductive Scan where
  | exit (status : Int) (usage : Bool)
  | completed (o : Options)
deriving DecidableEq, Repr

/-- Lines 183-228, the argument scan of `main` (`argv[0]` already skipped). -/
def scan_args (S : Sys) : List String → Options → Scan
  | [], o => Scan.completed o
  | arg :: rest, o =>
    if oneparam_args.contains arg then
      match rest with
      | [] => Scan.exit (-1) false
      | value :: rest1 =>
        let o1 := if arg = "-m" ∨ arg = "--model" then { o with models := value } else o
        if (arg = "--obs" ∨ arg = "--objects") ∧ (S.strtol value).2 = false then
          Scan.exit (-1) false
        else
          let o2 :=
            if arg = "--obs" ∨ arg = "--objects" then
              { o1 with object_count := to_size_t (S.strtol value).1 }
            else o1
          if (arg = "--ops" ∨ arg = "--operations") ∧ (S.strtol value).2 = false then
            Scan.exit (-1) false
          else
            let o3 :=
              if arg = "--ops" ∨ arg = "--operations" then
                { o2 with operation_count := to_size_t (S.strtol value).1 }
              else o2
            let o4 := if arg = "--prefix" ∨ arg = "-p" then { o3 with pfx := value } else o3
            let o5 := if arg = "-o" then { o4 with output_name := value } else o4
            scan_args S rest1 o5
    else if arg = "-h" ∨ arg = "--help" then Scan.exit 0 true
    else Scan.exit 1 true

/-- How a call of `main` ends: the exit status, whether the usage text was printed, whether
`load_models` was called, and what `generate_iolog` wrote (`none` if it was not called).
`undefined` stands for undefined behaviour in `load_models` or `generate_iolog`. -/
inductive MainResult where
  | out_of_fuel
  | undefined
  | finished (status : Int) (usage : Bool) (models_loaded : Bool)
      (written : Option (List Batch))
deriving DecidableEq, Repr

/-- The function `main`, on the arguments after `argv[0]`; `E` supplies what
`generate_iolog` takes from outside apart from the models, which `load_models` loads. -/
def main (S : Sys) (E : Env) (fuel : Nat) (args : List String) : MainResult :=
  match scan_args S args default_options with
  | Scan.exit status usage => MainResult.finished status usage false none
  | Scan.completed o =>
    if o.models = "" then MainResult.finished 1 true false none
    else
      match load_models S fuel o.models [] with
      | Loaded.out_of_fuel => MainResult.out_of_fuel
      | Loaded.undefined => MainResult.undefined
      | Loaded.returned result all_players =>
        if result = false then MainResult.finished 1 false true none
        else
          match generate_iolog { E with all_players := all_players } fuel o.output_name o.pfx
              o.operation_count o.object_count with
          | Result.out_of_fuel => MainResult.out_of_fuel
          | Result.aborted => MainResult.undefined
          | Result.returned value output =>
            MainResult.finished (if value then 0 else 1) false true (some output)

/-- The arguments that a list of option/value pairs stands for. -/
def flatten_pairs : List (String × String) → List String
  | [] => []
  | p :: rest => p.1 :: p.2 :: flatten_pairs rest

/-- An option with its value that the argument scan accepts and steps over: a recognised
one-parameter option, with a value that `strtol` consumes entirely if the option is numeric. -/
def accepted_pair (S : Sys) (p : String × String) : Prop :=
  oneparam_args.contains p.1 = true
  ∧ ((p.1 = "--obs" ∨ p.1 = "--objects" ∨ p.1 = "--ops" ∨ p.1 = "--operations") →
      (S.strtol p.2).2 = true)

/-! ## Concrete inputs -/

/-- Three models used as a concrete input. -/
def three_models : List Player_t :=
  [⟨10, 1⟩, ⟨100, 1⟩, ⟨25, 3⟩]


/-- One model; every instance has a single event, 5 time units after its admission for
the first instance (fresh pool) and 1 time unit after it for the later ones, and takes one
object name. -/
def single_event_env : Env where
  all_players := [⟨10, 1⟩]
  RAND_MAX := 100
  rand := fun _ => 50
  foutput_good := fun _ => true
  Playback_new := fun _ pool t =>
    ((t + (if pool.names = [] then 5 else 1), []), ⟨pool.pfx, "object" :: pool.names⟩)
  pool_effect := fun _ _ pool => pool

/-- One model; every instance has two events, at times 10 and 20 or at its admission time
if that is later, and takes one object name. -/
def two_event_env : Env where
  all_players := [⟨10, 1⟩]
  RAND_MAX := 100
  rand := fun _ => 50
  foutput_good := fun _ => true
  Playback_new := fun _ pool t =>
    ((max t 10, [max t 20]), ⟨pool.pfx, "object" :: pool.names⟩)
  pool_effect := fun _ _ pool => pool

/-- One model that needs two objects; every instance has two events and takes two names. -/
def two_object_env : Env where
  all_players := [⟨10, 2⟩]
  RAND_MAX := 100
  rand := fun _ => 50
  foutput_good := fun _ => true
  Playback_new := fun _ pool t =>
    ((t + 1, [t + 2]), ⟨pool.pfx, "first" :: "second" :: pool.names⟩)
  pool_effect := fun _ _ pool => pool

/-- Two models: model 0 (length 10) needs one object, model 1 (length 100) needs five. The
first call of `rand()` yields `RAND_MAX / 2`, every later call yields 0. -/
def deferring_env : Env where
  all_players := [⟨10, 1⟩, ⟨100, 5⟩]
  RAND_MAX := 100
  rand := fun k => if k = 0 then 50 else 0
  foutput_good := fun _ => true
  Playback_new := fun _ pool t => ((t + 1, []), ⟨pool.pfx, "object" :: pool.names⟩)
  pool_effect := fun _ _ pool => pool

/-- The environment `two_event_env`, except that no output file can be opened. -/
def no_output_env : Env :=
  { two_event_env with foutput_good := fun _ => false }

/-- One model; every instance has two events, at times 5 and `2 ^ 63`, or at its admission
time if that is later, and takes one object name. -/
def late_event_env : Env where
  all_players := [⟨10, 1⟩]
  RAND_MAX := 100
  rand := fun _ => 50
  foutput_good := fun _ => true
  Playback_new := fun _ pool t =>
    ((max t 5, [max t (2 ^ 63)]), ⟨pool.pfx, "object" :: pool.names⟩)
  pool_effect := fun _ _ pool => pool

/-- A system in which `strtol` accepts the string `12` only, the file `models` holds the
three bytes 1, 0, 2, and `Player_t::load` consumes one byte and fails on the byte 0. -/
def sample_sys : Sys where
  strtol := fun value => if value = "12" then (12, true) else (0, false)
  fopen := fun name => if name = "models" then some [1, 0, 2] else none
  Player_load := fun f => (f.head? ≠ some 0, ⟨10, 1⟩, f.tail)

/-! ## Predicates on loop states -/

/-- What the loop keeps true of its state: every entry of the active set has a pending
event and is keyed by its time, the active set is sorted by key, its entries are
distinct instances that were admitted earlier, and no close batch has been written. -/
def State.sound (s : State) : Prop :=
  (∀ e ∈ s.active_players, ∃ t later, e.2.events = t :: later ∧ e.1 = to_int64 t)
  ∧ s.active_players.Pairwise (fun a b => a.1 ≤ b.1)
  ∧ (s.active_players.map (fun e => e.2.id)).Nodup
  ∧ (∀ e ∈ s.active_players, e.2.id < s.admitted)
  ∧ (∀ b ∈ s.output, ∀ id, b ≠ Batch.closed id)

/-- The pending candidate, if any, refers to a loaded model. -/
def State.candidate_valid (E : Env) (s : State) : Prop :=
  ∀ i, s.next_player = some i → i < E.all_players.length

/-- Every lookup in the table yields a loaded model. -/
def Distribution.valid (E : Env) (distribution : Distribution) : Prop :=
  ∀ v, ∃ i, select_player distribution v = some i ∧ i < E.all_players.length

/-- Every playback instance reports event times that are non-decreasing and never earlier
than its admission time. -/
def times_monotone (E : Env) : Prop :=
  ∀ i pool t, List.Chain (fun a b => a ≤ b) t
    ((E.Playback_new i pool t).1.1 :: (E.Playback_new i pool t).1.2)

/-- Every playback instance admitted at a time below `2 ^ 63` reports event times that are
non-decreasing, never earlier than its admission time, and below `2 ^ 63` (so that the
conversion to the `int64_t` key keeps them). -/
def well_timed (E : Env) : Prop :=
  ∀ i pool t, t < 2 ^ 63 →
    List.Chain (fun a b => a ≤ b) t
      ((E.Playback_new i pool t).1.1 :: (E.Playback_new i pool t).1.2)
    ∧ ∀ x ∈ (E.Playback_new i pool t).1.1 :: (E.Playback_new i pool t).1.2, x < 2 ^ 63

/-- What the loop keeps true of the times while the active set does not run empty: the
events of every active instance are non-decreasing and below `2 ^ 63`, the drained keys are
non-decreasing, and no key in the active set is below a drained key. -/
def State.timed (s : State) : Prop :=
  (∀ e ∈ s.active_players,
      e.2.events.Chain' (fun a b => a ≤ b) ∧ ∀ x ∈ e.2.events, x < 2 ^ 63)
  ∧ (drained_keys s.output).Pairwise (fun a b => a ≤ b)
  ∧ (∀ d ∈ drained_keys s.output, ∀ e ∈ s.active_players, d ≤ e.1)

/-- Whether a batch is a close batch. -/
def Batch.is_closed : Batch → Bool
  | Batch.closed _ => true
  | _ => false

/-- Whether a batch is an open batch. -/
def Batch.is_opened : Batch → Bool
  | Batch.opened _ => true
  | _ => false

/-- In an output, every drain batch of an instance comes after an open batch of the same
one. -/
def opens_precede_drains (output : List Batch) : Prop :=
  ∀ pre post id key, output = pre ++ Batch.commands id key :: post → Batch.opened id ∈ pre

/-- The events of every active instance are non-decreasing and below `2 ^ 63`. -/
def State.in_order (s : State) : Prop :=
  ∀ e ∈ s.active_players,
    e.2.events.Chain' (fun a b => a ≤ b) ∧ ∀ x ∈ e.2.events, x < 2 ^ 63
/-! ## Lemmas on the distribution table -/

theorem foldl_max_ge (xs : List Player_t) (m : Nat) :
    m ≤ xs.foldl (fun max_length x => if max_length < x.length then x.length else max_length) m := by
  induction xs generalizing m with
  | nil => simp
  | cons x xs ih =>
    simp only [List.foldl_cons]
    split
    · exact le_trans (by omega) (ih _)
    · exact ih _

theorem foldl_max_mem (xs : List Player_t) (m : Nat) :
    ∀ x ∈ xs, x.length ≤
      xs.foldl (fun max_length x => if max_length < x.length then x.length else max_length) m := by
  induction xs generalizing m with
  | nil => simp
  | cons y ys ih =>
    intro x hx
    simp only [List.foldl_cons]
    rcases List.mem_cons.mp hx with rfl | hx
    · split
      · exact foldl_max_ge ys _
      · exact le_trans (by omega) (foldl_max_ge ys _)
    · exact ih _ x hx

theorem max_length_of_pos (xs : List Player_t) (hne : xs ≠ [])
    (hpos : ∀ x ∈ xs, 0 < x.length) : 0 < max_length_of xs := by
  cases xs with
  | nil => exact absurd rfl hne
  | cons x rest =>
    have h1 := hpos x (List.mem_cons_self _ _)
    have h2 := foldl_max_mem (x :: rest) 0 x (List.mem_cons_self _ _)
    unfold max_length_of
    omega

theorem foldl_sump (M : Nat) (xs : List Player_t) (s : ℚ) :
    xs.foldl (fun sump x => sump + (M : ℚ) / (x.length : ℚ)) s
      = s + (xs.map (fun x => (M : ℚ) / (x.length : ℚ))).sum := by
  induction xs generalizing s with
  | nil => simp
  | cons y ys ih =>
    simp only [List.foldl_cons, List.map_cons, List.sum_cons]
    rw [ih]
    ring

theorem sump_of_eq (M : Nat) (xs : List Player_t) :
    sump_of M xs = (xs.map (fun x => (M : ℚ) / (x.length : ℚ))).sum := by
  unfold sump_of
  rw [foldl_sump]
  simp

theorem ratio_pos (M : Nat) (hM : 0 < M) (x : Player_t) (hx : 0 < x.length) :
    (0 : ℚ) < (M : ℚ) / (x.length : ℚ) := by
  have h1 : (0 : ℚ) < (M : ℚ) := by exact_mod_cast hM
  have h2 : (0 : ℚ) < (x.length : ℚ) := by exact_mod_cast hx
  exact div_pos h1 h2

theorem sum_ratio_pos (M : Nat) (hM : 0 < M) (xs : List Player_t) (hne : xs ≠ [])
    (hpos : ∀ x ∈ xs, 0 < x.length) :
    (0 : ℚ) < (xs.map (fun x => (M : ℚ) / (x.length : ℚ))).sum := by
  induction xs with
  | nil => exact absurd rfl hne
  | cons y ys ih =>
    simp only [List.map_cons, List.sum_cons]
    have hy := ratio_pos M hM y (hpos y (List.mem_cons_self _ _))
    by_cases hys : ys = []
    · subst hys
      simpa using hy
    · have := ih hys (fun x hx => hpos x (List.mem_cons_of_mem _ hx))
      linarith

theorem sump_of_pos (xs : List Player_t) (hne : xs ≠ [])
    (hpos : ∀ x ∈ xs, 0 < x.length) : 0 < sump_of (max_length_of xs) xs := by
  rw [sump_of_eq]
  exact sum_ratio_pos _ (max_length_of_pos xs hne hpos) xs hne hpos

theorem weight_pos (xs : List Player_t) (hne : xs ≠ [])
    (hpos : ∀ x ∈ xs, 0 < x.length) (x : Player_t) (hx : 0 < x.length) :
    0 < weight (max_length_of xs) (sump_of (max_length_of xs) xs) x := by
  unfold weight
  exact div_pos (ratio_pos _ (max_length_of_pos xs hne hpos) x hx) (sump_of_pos xs hne hpos)

theorem sum_map_weight (M : Nat) (S : ℚ) (xs : List Player_t) :
    (xs.map (weight M S)).sum = (xs.map (fun x => (M : ℚ) / (x.length : ℚ))).sum / S := by
  induction xs with
  | nil => simp
  | cons y ys ih =>
    simp only [List.map_cons, List.sum_cons, ih, weight]
    ring

theorem sum_weights_eq_one (xs : List Player_t) (hne : xs ≠ [])
    (hpos : ∀ x ∈ xs, 0 < x.length) :
    (xs.map (weight (max_length_of xs) (sump_of (max_length_of xs) xs))).sum = 1 := by
  rw [sum_map_weight, ← sump_of_eq]
  exact div_self (ne_of_gt (sump_of_pos xs hne hpos))

theorem map_emplace_append (c : ℚ) (i : Nat) (d : Distribution)
    (h : ∀ e ∈ d, e.1 < c) : map_emplace c i d = d ++ [(c, i)] := by
  induction d with
  | nil => rfl
  | cons e rest ih =>
    have he := h e (List.mem_cons_self _ _)
    have h1 : ¬ c < e.1 := not_lt.mpr (le_of_lt he)
    have h2 : ¬ c = e.1 := ne_of_gt he
    simp only [map_emplace, h1, h2, if_false, List.cons_append]
    rw [ih (fun e' he' => h e' (List.mem_cons_of_mem _ he'))]

theorem distribution_loop_eq (M : Nat) (S : ℚ) (xs : List Player_t)
    (hw : ∀ x ∈ xs, 0 < weight M S x) (i : Nat) (c : ℚ) (d : Distribution)
    (hd : ∀ e ∈ d, e.1 < c) :
    distribution_loop M S xs i c d = d ++ cumulative (xs.map (weight M S)) i c := by
  induction xs generalizing i c d with
  | nil => simp [distribution_loop, cumulative]
  | cons x rest ih =>
    have hx := hw x (List.mem_cons_self _ _)
    simp only [distribution_loop, List.map_cons, cumulative]
    rw [map_emplace_append c i d hd, ih (fun y hy => hw y (List.mem_cons_of_mem _ hy))]
    · simp
    · intro e he
      rcases List.mem_append.mp he with he | he
      · have := hd e he
        linarith
      · simp only [List.mem_singleton] at he
        subst he
        simpa using hx

theorem generate_distribution_eq (xs : List Player_t) (hne : xs ≠ [])
    (hpos : ∀ x ∈ xs, 0 < x.length) :
    generate_distribution xs
      = cumulative (xs.map (weight (max_length_of xs) (sump_of (max_length_of xs) xs))) 0 0 := by
  unfold generate_distribution
  simp only []
  rw [distribution_loop_eq _ _ xs (fun x hx => weight_pos xs hne hpos x (hpos x hx)) 0 0 []
    (by simp)]
  simp

theorem cumulative_length (ws : List ℚ) (i : Nat) (c : ℚ) :
    (cumulative ws i c).length = ws.length := by
  induction ws generalizing i c with
  | nil => rfl
  | cons w rest ih => simp [cumulative, ih]

theorem cumulative_snd (ws : List ℚ) (i : Nat) (c : ℚ) :
    (cumulative ws i c).map Prod.snd = List.range' i ws.length := by
  induction ws generalizing i c with
  | nil => rfl
  | cons w rest ih => simp [cumulative, ih, List.range'_succ]

theorem cumulative_bounds (ws : List ℚ) (hw : ∀ w ∈ ws, 0 < w) (i : Nat) (c : ℚ) :
    ∀ e ∈ cumulative ws i c, c ≤ e.1 ∧ e.1 < c + ws.sum := by
  induction ws generalizing i c with
  | nil => simp [cumulative]
  | cons w rest ih =>
    intro e he
    have hw0 := hw w (List.mem_cons_self _ _)
    have hrest : 0 ≤ rest.sum := List.sum_nonneg (fun x hx => le_of_lt (hw x (List.mem_cons_of_mem _ hx)))
    simp only [cumulative, List.mem_cons] at he
    simp only [List.sum_cons]
    rcases he with rfl | he
    · constructor
      · exact le_refl _
      · simp only
        linarith
    · have := ih (fun x hx => hw x (List.mem_cons_of_mem _ hx)) (i + 1) (c + w) e he
      constructor
      · linarith [this.1]
      · linarith [this.2]

theorem cumulative_sorted (ws : List ℚ) (hw : ∀ w ∈ ws, 0 < w) (i : Nat) (c : ℚ) :
    ((cumulative ws i c).map Prod.fst).Pairwise (fun a b => a < b) := by
  induction ws generalizing i c with
  | nil => simp [cumulative]
  | cons w rest ih =>
    have hw0 := hw w (List.mem_cons_self _ _)
    have hr : ∀ x ∈ rest, 0 < x := fun x hx => hw x (List.mem_cons_of_mem _ hx)
    simp only [cumulative, List.map_cons, List.pairwise_cons]
    refine ⟨?_, ih hr _ _⟩
    intro b hb
    obtain ⟨e, he, rfl⟩ := List.mem_map.mp hb
    have := (cumulative_bounds rest hr (i + 1) (c + w) e he).1
    linarith

theorem select_player_two_entries (b u : ℚ) (hu : 0 < u) :
    select_player [(0, 0), (b, 1)] u = some 1 := by
  unfold select_player lower_bound
  by_cases h : b < u
  · simp [List.dropWhile, hu, h]
  · simp [List.dropWhile, hu, h]

/-! ## The distribution table: weights, boundaries, sampling -/

/-- C8: for a non-empty list of models with positive lengths (arithmetic over exact
rationals) the normalized weights sum to 1, the table of `generate_distribution` has one
boundary per model, attached to the models in model order, the boundaries are strictly
increasing, the first boundary is 0 and every boundary lies in [0,1). -/
theorem generate_distribution_partition (all_players : List Player_t)
    (hne : all_players ≠ []) (hpos : ∀ x ∈ all_players, 0 < x.length) :
    (all_players.map (weight (max_length_of all_players)
        (sump_of (max_length_of all_players) all_players))).sum = 1
    ∧ (generate_distribution all_players).length = all_players.length
    ∧ (generate_distribution all_players).map Prod.snd = List.range all_players.length
    ∧ ((generate_distribution all_players).map Prod.fst).Pairwise (fun a b => a < b)
    ∧ (generate_distribution all_players).head? = some (0, 0)
    ∧ ∀ e ∈ generate_distribution all_players, 0 ≤ e.1 ∧ e.1 < 1 := by
  have hsum := sum_weights_eq_one all_players hne hpos
  have hw : ∀ w ∈ all_players.map (weight (max_length_of all_players)
      (sump_of (max_length_of all_players) all_players)), 0 < w := by
    intro w hw
    obtain ⟨x, hx, rfl⟩ := List.mem_map.mp hw
    exact weight_pos all_players hne hpos x (hpos x hx)
  rw [generate_distribution_eq all_players hne hpos]
  refine ⟨hsum, ?_, ?_, cumulative_sorted _ hw 0 0, ?_, ?_⟩
  · rw [cumulative_length, List.length_map]
  · rw [cumulative_snd, List.length_map, List.range_eq_range']
  · cases all_players with
    | nil => exact absurd rfl hne
    | cons x rest => simp [cumulative]
  · intro e he
    have := cumulative_bounds _ hw 0 0 e he
    rw [hsum] at this
    constructor
    · exact this.1
    · linarith [this.2]

/-- The three models of `three_models`, for C8. -/
theorem generate_distribution_partition_witness :
    three_models ≠ [] ∧ (∀ x ∈ three_models, 0 < x.length)
    ∧ (three_models.map (weight (max_length_of three_models)
        (sump_of (max_length_of three_models) three_models))).sum = 1
    ∧ (generate_distribution three_models).length = three_models.length
    ∧ (generate_distribution three_models).map Prod.snd = List.range three_models.length
    ∧ ((generate_distribution three_models).map Prod.fst).Pairwise (fun a b => a < b)
    ∧ (generate_distribution three_models).head? = some (0, 0)
    ∧ ∀ e ∈ generate_distribution three_models, 0 ≤ e.1 ∧ e.1 < 1 :=
  ⟨by decide, by decide,
    generate_distribution_partition three_models (by decide) (by decide)⟩

/-- C2: at the models of lengths 10 and 100 the boundaries are 0 and 10/11, so the interval
that contains the draw u = 1/2 (and the draw 1073741823 / 2147483647, which `rand()` yields
with `RAND_MAX = 2147483647`) belongs to model 0, but the sampling step of `generate_iolog`
(`lower_bound`) yields model 1. -/
theorem select_player_skips_interval :
    generate_distribution [⟨10, 1⟩, ⟨100, 1⟩] = [(0, 0), (10 / 11, 1)]
    ∧ interval_player (generate_distribution [⟨10, 1⟩, ⟨100, 1⟩]) (1 / 2) = some 0
    ∧ select_player (generate_distribution [⟨10, 1⟩, ⟨100, 1⟩]) (1 / 2) = some 1
    ∧ interval_player (generate_distribution [⟨10, 1⟩, ⟨100, 1⟩])
        ((1073741823 : Nat) / (2147483647 : Nat)) = some 0
    ∧ select_player (generate_distribution [⟨10, 1⟩, ⟨100, 1⟩])
        ((1073741823 : Nat) / (2147483647 : Nat)) = some 1 := by
  decide!

/-- C10: with the models of lengths 10 and 100 (one object each, in either order), the
sampling step selects the first model of the table for the draw 0 only and the second one
for every draw above 0: the length-10 model is not selected on a set of measure 10/11. -/
theorem select_player_two_models (u : ℚ) (hu : 0 < u) :
    select_player (generate_distribution [⟨10, 1⟩, ⟨100, 1⟩]) u = some 1
    ∧ select_player (generate_distribution [⟨10, 1⟩, ⟨100, 1⟩]) 0 = some 0
    ∧ select_player (generate_distribution [⟨100, 1⟩, ⟨10, 1⟩]) u = some 1
    ∧ select_player (generate_distribution [⟨100, 1⟩, ⟨10, 1⟩]) 0 = some 0 := by
  have h1 : generate_distribution [⟨10, 1⟩, ⟨100, 1⟩] = [(0, 0), (10 / 11, 1)] := by decide!
  have h2 : generate_distribution [⟨100, 1⟩, ⟨10, 1⟩] = [(0, 0), (1 / 11, 1)] := by decide!
  rw [h1, h2]
  exact ⟨select_player_two_entries _ u hu, by decide!, select_player_two_entries _ u hu,
    by decide!⟩

/-- The draw 1/2, for C10. -/
theorem select_player_two_models_witness :
    (0 : ℚ) < 1 / 2
    ∧ select_player (generate_distribution [⟨10, 1⟩, ⟨100, 1⟩]) (1 / 2) = some 1
    ∧ select_player (generate_distribution [⟨10, 1⟩, ⟨100, 1⟩]) 0 = some 0
    ∧ select_player (generate_distribution [⟨100, 1⟩, ⟨10, 1⟩]) (1 / 2) = some 1
    ∧ select_player (generate_distribution [⟨100, 1⟩, ⟨10, 1⟩]) 0 = some 0 :=
  ⟨by norm_num, select_player_two_models (1 / 2) (by norm_num)⟩

/-! ## Lemmas on the scheduler -/

theorem to_int64_of_lt (t : Nat) (h : t < 2 ^ 63) : to_int64 t = (t : Int) := by
  unfold to_int64
  have h1 : t % 2 ^ 64 = t := Nat.mod_eq_of_lt (by omega)
  rw [h1, if_pos h]

theorem to_uint64_of_lt (t : Nat) (h : t < 2 ^ 63) : to_uint64 (t : Int) = t := by
  unfold to_uint64
  have h1 : ((t : Int)) % 2 ^ 64 = (t : Int) := by
    apply Int.emod_eq_of_lt
    · omega
    · have : (2 : Int) ^ 64 = ((2 ^ 64 : Nat) : Int) := by norm_num
      rw [this]
      exact_mod_cast (by omega : t < 2 ^ 64)
  rw [h1]
  simp

theorem mem_mm_emplace (k : Int) (pb : Playback_t) (l : ActivePlayers) (e : Int × Playback_t) :
    e ∈ mm_emplace k pb l ↔ e = (k, pb) ∨ e ∈ l := by
  induction l with
  | nil => simp [mm_emplace]
  | cons a rest ih =>
    unfold mm_emplace
    split
    · simp
    · simp only [List.mem_cons, ih]
      tauto

theorem mm_emplace_perm (k : Int) (pb : Playback_t) (l : ActivePlayers) :
    (mm_emplace k pb l).Perm ((k, pb) :: l) := by
  induction l with
  | nil => simp [mm_emplace]
  | cons a rest ih =>
    unfold mm_emplace
    split
    · exact List.Perm.refl _
    · exact (List.Perm.cons a ih).trans (List.Perm.swap _ _ _)

theorem mm_emplace_length (k : Int) (pb : Playback_t) (l : ActivePlayers) :
    (mm_emplace k pb l).length = l.length + 1 := by
  simpa using (mm_emplace_perm k pb l).length_eq

theorem mm_emplace_sorted (k : Int) (pb : Playback_t) (l : ActivePlayers)
    (h : l.Pairwise (fun a b => a.1 ≤ b.1)) :
    (mm_emplace k pb l).Pairwise (fun a b => a.1 ≤ b.1) := by
  induction l with
  | nil => simp [mm_emplace]
  | cons a rest ih =>
    rw [List.pairwise_cons] at h
    unfold mm_emplace
    split
    · rename_i hlt
      rw [List.pairwise_cons]
      refine ⟨?_, List.pairwise_cons.mpr h⟩
      intro b hb
      rcases List.mem_cons.mp hb with rfl | hb
      · exact le_of_lt hlt
      · exact le_trans (le_of_lt hlt) (h.1 b hb)
    · rename_i hge
      rw [List.pairwise_cons]
      refine ⟨?_, ih h.2⟩
      intro b hb
      rcases (mem_mm_emplace k pb rest b).mp hb with rfl | hb
      · exact not_lt.mp hge
      · exact h.1 b hb

theorem mm_emplace_erase_first (k : Int) (pb : Playback_t) (first : Int × Playback_t)
    (rest : ActivePlayers) (h : (first :: rest).Pairwise (fun a b => a.1 ≤ b.1)) :
    (mm_emplace k pb (first :: rest)).eraseIdx (if k < first.1 then 1 else 0)
      = mm_emplace k pb rest := by
  rw [List.pairwise_cons] at h
  by_cases hk : k < first.1
  · simp only [mm_emplace, hk, if_true, List.eraseIdx_cons_succ, List.eraseIdx_cons_zero]
    cases rest with
    | nil => rfl
    | cons a r =>
      have : k < a.1 := lt_of_lt_of_le hk (h.1 a (List.mem_cons_self _ _))
      simp [mm_emplace, this]
  · simp [mm_emplace, hk]

theorem sample_step_spec (E : Env) (distribution : Distribution) (s s1 : State)
    (h : sample_step E distribution s = some s1) :
    (s.next_player ≠ none ∧ s1 = s)
    ∨ (s.next_player = none
        ∧ ∃ i, select_player distribution
            ((E.rand s.rand_calls : ℚ) / (E.RAND_MAX : ℚ)) = some i
          ∧ s1 = { s with next_player := some i, rand_calls := s.rand_calls + 1 }) := by
  unfold sample_step at h
  split at h
  · rename_i i hi
    left
    simp only [Option.some.injEq] at h
    exact ⟨by simp [hi], h.symm⟩
  · rename_i hnone
    right
    refine ⟨hnone, ?_⟩
    simp only at h
    split at h
    · exact absurd h (by simp)
    · rename_i i hi
      simp only [Option.some.injEq] at h
      exact ⟨i, hi, h.symm⟩

theorem admit_step_spec (E : Env) (max_object_count : Nat) (s s2 : State)
    (h : admit_step E max_object_count s = some s2) :
    ∃ i x, s.next_player = some i ∧ E.all_players[i]? = some x
      ∧ ((max_object_count < s.object_pool.names_count + x.object_count ∧ s2 = s)
        ∨ (s.object_pool.names_count + x.object_count ≤ max_object_count
          ∧ s2 =
            { output := s.output ++ [Batch.opened s.admitted]
              object_pool := E.pool_effect Call.blktrace_open
                { id := s.admitted, player := i,
                  events := (E.Playback_new i s.object_pool
                      (admission_time s.active_players)).1.1 ::
                    (E.Playback_new i s.object_pool (admission_time s.active_players)).1.2 }
                (E.pool_effect Call.blktrace_get_next_time
                  { id := s.admitted, player := i,
                    events := (E.Playback_new i s.object_pool
                        (admission_time s.active_players)).1.1 ::
                      (E.Playback_new i s.object_pool (admission_time s.active_players)).1.2 }
                  (E.Playback_new i s.object_pool (admission_time s.active_players)).2)
              next_player := none
              next_time := admission_time s.active_players
              rand_calls := s.rand_calls
              admitted := s.admitted + 1
              active_players :=
                mm_emplace
                  (to_int64 (E.Playback_new i s.object_pool
                    (admission_time s.active_players)).1.1)
                  { id := s.admitted, player := i,
                    events := (E.Playback_new i s.object_pool
                        (admission_time s.active_players)).1.1 ::
                      (E.Playback_new i s.object_pool (admission_time s.active_players)).1.2 }
                  s.active_players })) := by
  unfold admit_step at h
  split at h
  · exact absurd h (by simp)
  · rename_i i hi
    split at h
    · exact absurd h (by simp)
    · rename_i x hx
      refine ⟨i, x, hi, hx, ?_⟩
      split at h
      · rename_i hfit
        right
        refine ⟨hfit, ?_⟩
        simp only [Playback_t.blktrace_get_next_time, List.head?_cons, Option.some.injEq] at h
        exact h.symm
      · rename_i hfit
        left
        simp only [Option.some.injEq] at h
        exact ⟨by omega, h.symm⟩

theorem drain_step_spec (E : Env) (s s3 : State) (h : drain_step E s = some s3) :
    (s.active_players = [] ∧ s3 = s)
    ∨ ∃ k pb t later rest, s.active_players = (k, pb) :: rest ∧ pb.events = t :: later
        ∧ s3.output = s.output ++ [Batch.commands pb.id k]
        ∧ (s3.object_pool = E.pool_effect Call.blktrace_get_next_time { pb with events := later }
            (E.pool_effect Call.blktrace_get_commands { pb with events := later } s.object_pool)
          ∨ s3.object_pool = E.pool_effect Call.destructor { pb with events := later }
            (E.pool_effect Call.blktrace_get_next_time { pb with events := later }
              (E.pool_effect Call.blktrace_get_commands { pb with events := later }
                s.object_pool)))
        ∧ s3.next_player = s.next_player
        ∧ s3.rand_calls = s.rand_calls
        ∧ s3.admitted = s.admitted
        ∧ ((later = [] ∧ s3.active_players = rest ∧ s3.next_time = s.next_time)
          ∨ ∃ t1 later1, later = t1 :: later1
              ∧ s3.next_time = t1 % 2 ^ 64
              ∧ s3.active_players =
                (mm_emplace (to_int64 t1) { pb with events := later } ((k, pb) :: rest)).eraseIdx
                  (if to_int64 t1 < k then 1 else 0)) := by
  unfold drain_step at h
  split at h
  · rename_i hnil
    left
    simp only [Option.some.injEq] at h
    exact ⟨hnil, h.symm⟩
  · rename_i first rest hact
    right
    obtain ⟨k, pb⟩ := first
    cases hev : pb.events with
    | nil =>
      simp [Playback_t.blktrace_get_commands, hev] at h
    | cons t later =>
      refine ⟨k, pb, t, later, rest, hact, hev, ?_⟩
      simp only [Playback_t.blktrace_get_commands, hev] at h
      cases later with
      | nil =>
        simp only [Playback_t.blktrace_get_next_time, List.head?_nil, Option.some.injEq] at h
        subst h
        simp
      | cons t1 later1 =>
        simp only [Playback_t.blktrace_get_next_time, List.head?_cons, Option.some.injEq] at h
        subst h
        simp

theorem sound_initial (pfx : String) : (initial_state pfx).sound := by
  refine ⟨?_, ?_, ?_, ?_, ?_⟩ <;> simp [initial_state]

theorem sample_step_sound (E : Env) (distribution : Distribution) (s s1 : State)
    (hs : s.sound) (h : sample_step E distribution s = some s1) : s1.sound := by
  rcases sample_step_spec E distribution s s1 h with ⟨_, rfl⟩ | ⟨_, i, _, rfl⟩
  · exact hs
  · exact hs

theorem admit_step_sound (E : Env) (max_object_count : Nat) (s s2 : State)
    (hs : s.sound) (h : admit_step E max_object_count s = some s2) : s2.sound := by
  obtain ⟨i, x, _, _, ⟨_, rfl⟩ | ⟨_, rfl⟩⟩ := admit_step_spec E max_object_count s s2 h
  · exact hs
  · obtain ⟨h1, h2, h3, h4, h5⟩ := hs
    refine ⟨?_, ?_, ?_, ?_, ?_⟩
    · intro e he
      rcases (mem_mm_emplace _ _ _ e).mp he with rfl | he
      · exact ⟨_, _, rfl, rfl⟩
      · exact h1 e he
    · exact mm_emplace_sorted _ _ _ h2
    · simp only
      refine ((mm_emplace_perm _ _ _).map _).nodup_iff.mpr ?_
      simp only [List.map_cons, List.nodup_cons]
      refine ⟨?_, h3⟩
      intro hmem
      obtain ⟨e, he, heq⟩ := List.mem_map.mp hmem
      have := h4 e he
      omega
    · intro e he
      rcases (mem_mm_emplace _ _ _ e).mp he with rfl | he
      · simp
      · have := h4 e he
        simp only
        omega
    · intro b hb id
      simp only [List.mem_append, List.mem_singleton] at hb
      rcases hb with hb | rfl
      · exact h5 b hb id
      · simp

theorem drain_step_active (E : Env) (s s3 : State) (hs : s.sound)
    (h : drain_step E s = some s3) :
    (s.active_players = [] ∧ s3 = s)
    ∨ ∃ k pb t later rest, s.active_players = (k, pb) :: rest ∧ pb.events = t :: later
        ∧ k = to_int64 t
        ∧ s3.output = s.output ++ [Batch.commands pb.id k]
        ∧ s3.admitted = s.admitted
        ∧ ((later = [] ∧ s3.active_players = rest)
          ∨ ∃ t1 later1, later = t1 :: later1
              ∧ s3.active_players
                = mm_emplace (to_int64 t1) { pb with events := later } rest) := by
  rcases drain_step_spec E s s3 h with h0 | ⟨k, pb, t, later, rest, hact, hev, hout, _, _, _, hadm, hcase⟩
  · exact Or.inl h0
  · right
    obtain ⟨h1, h2, _⟩ := hs
    have hk : k = to_int64 t := by
      obtain ⟨t', later', he, hk⟩ := h1 (k, pb) (by rw [hact]; exact List.mem_cons_self _ _)
      simp only at he hk
      rw [hev] at he
      simp only [List.cons.injEq] at he
      rw [hk, he.1]
    refine ⟨k, pb, t, later, rest, hact, hev, hk, hout, hadm, ?_⟩
    rcases hcase with ⟨hl, ha, _⟩ | ⟨t1, later1, hl, _, ha⟩
    · exact Or.inl ⟨hl, ha⟩
    · right
      refine ⟨t1, later1, hl, ?_⟩
      rw [ha]
      rw [hact] at h2
      exact mm_emplace_erase_first _ _ (k, pb) rest h2

theorem drain_step_sound (E : Env) (s s3 : State) (hs : s.sound)
    (h : drain_step E s = some s3) : s3.sound := by
  rcases drain_step_active E s s3 hs h with ⟨_, rfl⟩ |
    ⟨k, pb, t, later, rest, hact, hev, hk, hout, hadm, hcase⟩
  · exact hs
  · obtain ⟨h1, h2, h3, h4, h5⟩ := hs
    rw [hact] at h1 h2 h3 h4
    rw [List.pairwise_cons] at h2
    simp only [List.map_cons, List.nodup_cons] at h3
    have h5' : ∀ b ∈ s3.output, ∀ id, b ≠ Batch.closed id := by
      intro b hb id
      rw [hout] at hb
      simp only [List.mem_append, List.mem_singleton] at hb
      rcases hb with hb | rfl
      · exact h5 b hb id
      · simp
    rcases hcase with ⟨_, ha⟩ | ⟨t1, later1, hl, ha⟩
    · refine ⟨?_, ?_, ?_, ?_, h5'⟩
      · intro e he
        rw [ha] at he
        exact h1 e (List.mem_cons_of_mem _ he)
      · rw [ha]
        exact h2.2
      · rw [ha]
        exact h3.2
      · intro e he
        rw [ha] at he
        rw [hadm]
        exact h4 e (List.mem_cons_of_mem _ he)
    · refine ⟨?_, ?_, ?_, ?_, h5'⟩
      · intro e he
        rw [ha] at he
        rcases (mem_mm_emplace _ _ _ e).mp he with rfl | he
        · exact ⟨t1, later1, by simp [hl], rfl⟩
        · exact h1 e (List.mem_cons_of_mem _ he)
      · rw [ha]
        exact mm_emplace_sorted _ _ _ h2.2
      · rw [ha]
        refine ((mm_emplace_perm _ _ _).map _).nodup_iff.mpr ?_
        simp only [List.map_cons, List.nodup_cons]
        exact h3
      · intro e he
        rw [ha] at he
        rw [hadm]
        rcases (mem_mm_emplace _ _ _ e).mp he with rfl | he
        · exact h4 (k, pb) (List.mem_cons_self _ _)
        · exact h4 e (List.mem_cons_of_mem _ he)

theorem body_spec (E : Env) (distribution : Distribution) (max_object_count : Nat)
    (s s3 : State) (h : body E distribution max_object_count s = some s3) :
    ∃ s1 s2, sample_step E distribution s = some s1
      ∧ admit_step E max_object_count s1 = some s2 ∧ drain_step E s2 = some s3 := by
  unfold body at h
  cases h1 : sample_step E distribution s with
  | none => simp [h1] at h
  | some s1 =>
    simp only [h1, Option.some_bind] at h
    cases h2 : admit_step E max_object_count s1 with
    | none => simp [h2] at h
    | some s2 =>
      simp only [h2, Option.some_bind] at h
      exact ⟨s1, s2, rfl, h2, h⟩

theorem body_sound (E : Env) (distribution : Distribution) (max_object_count : Nat)
    (s s3 : State) (hs : s.sound) (h : body E distribution max_object_count s = some s3) :
    s3.sound := by
  obtain ⟨s1, s2, h1, h2, h3⟩ := body_spec E distribution max_object_count s s3 h
  exact drain_step_sound E s2 s3
    (admit_step_sound E max_object_count s1 s2 (sample_step_sound E distribution s s1 hs h1) h2) h3

theorem iterate_invariant (E : Env) (distribution : Distribution) (max_object_count : Nat)
    (P : State → Prop)
    (hstep : ∀ s s3, P s → body E distribution max_object_count s = some s3 → P s3) :
    ∀ (n : Nat) (s s3 : State), P s → iterate E distribution max_object_count n s = some s3 →
      P s3 := by
  intro n
  induction n with
  | zero =>
    intro s s3 hP h
    simp only [iterate, Option.some.injEq] at h
    exact h ▸ hP
  | succ n ih =>
    intro s s3 hP h
    simp only [iterate] at h
    cases hb : body E distribution max_object_count s with
    | none => simp [hb] at h
    | some s1 =>
      simp only [hb, Option.some_bind] at h
      exact ih s1 s3 (hstep s s1 hP hb) h

theorem iterate_sound (E : Env) (distribution : Distribution) (max_object_count : Nat)
    (n : Nat) (s s3 : State) (hs : s.sound)
    (h : iterate E distribution max_object_count n s = some s3) : s3.sound :=
  iterate_invariant E distribution max_object_count State.sound
    (fun a b ha hb => body_sound E distribution max_object_count a b ha hb) n s s3 hs h

theorem iterate_succ_last (E : Env) (distribution : Distribution) (max_object_count : Nat)
    (n : Nat) (s : State) :
    iterate E distribution max_object_count (n + 1) s
      = (iterate E distribution max_object_count n s).bind
          (body E distribution max_object_count) := by
  induction n generalizing s with
  | zero =>
    simp only [iterate, Option.some_bind]
    cases body E distribution max_object_count s <;> simp [iterate]
  | succ n ih =>
    rw [iterate]
    cases hb : body E distribution max_object_count s with
    | none => simp [iterate, hb]
    | some s1 =>
      simp only [Option.some_bind]
      rw [ih s1]
      conv_rhs => rw [iterate, hb, Option.some_bind]

theorem generate_distribution_valid (E : Env) (hne : E.all_players ≠ [])
    (hpos : ∀ x ∈ E.all_players, 0 < x.length) :
    Distribution.valid E (generate_distribution E.all_players) := by
  intro v
  have hd := generate_distribution_eq E.all_players hne hpos
  have hsnd : (generate_distribution E.all_players).map Prod.snd
      = List.range' 0 E.all_players.length := by
    rw [hd, cumulative_snd, List.length_map]
  have hlen : (generate_distribution E.all_players).length = E.all_players.length := by
    rw [hd, cumulative_length, List.length_map]
  have hmem : ∀ e ∈ generate_distribution E.all_players, e.2 < E.all_players.length := by
    intro e he
    have : e.2 ∈ (generate_distribution E.all_players).map Prod.snd :=
      List.mem_map.mpr ⟨e, he, rfl⟩
    rw [hsnd] at this
    have := List.mem_range'_1.mp this
    omega
  have hnil : generate_distribution E.all_players ≠ [] := by
    intro h0
    rw [h0] at hlen
    exact hne (List.length_eq_zero.mp hlen.symm)
  unfold select_player
  split
  · rename_i e tail hlb
    refine ⟨e.2, rfl, hmem e ?_⟩
    have hsub : (lower_bound v (generate_distribution E.all_players)).Sublist
        (generate_distribution E.all_players) := List.dropWhile_sublist _
    exact hsub.subset (by rw [hlb]; exact List.mem_cons_self _ _)
  · refine ⟨((generate_distribution E.all_players).getLast hnil).2, ?_, ?_⟩
    · rw [List.getLast?_eq_getLast _ hnil]
      rfl
    · exact hmem _ (List.getLast_mem hnil)

theorem sample_step_progress (E : Env) (distribution : Distribution) (s : State)
    (hd : Distribution.valid E distribution) (hc : s.candidate_valid E) :
    ∃ s1 i, sample_step E distribution s = some s1 ∧ s1.next_player = some i
      ∧ i < E.all_players.length := by
  unfold sample_step
  cases hn : s.next_player with
  | some i => exact ⟨s, i, rfl, hn, hc i hn⟩
  | none =>
    obtain ⟨i, hi, hlt⟩ := hd ((E.rand s.rand_calls : ℚ) / (E.RAND_MAX : ℚ))
    simp only [hi]
    exact ⟨_, i, rfl, rfl, hlt⟩

theorem admit_step_progress (E : Env) (max_object_count : Nat) (s : State) (i : Nat)
    (hi : s.next_player = some i) (hlt : i < E.all_players.length) :
    ∃ s2, admit_step E max_object_count s = some s2 := by
  unfold admit_step
  simp only [hi, List.getElem?_eq_getElem hlt, Playback_t.blktrace_get_next_time,
    List.head?_cons]
  split
  · exact ⟨_, rfl⟩
  · exact ⟨_, rfl⟩

theorem drain_step_progress (E : Env) (s : State) (hs : s.sound) :
    ∃ s3, drain_step E s = some s3 := by
  unfold drain_step
  split
  · exact ⟨_, rfl⟩
  · rename_i first rest hact
    obtain ⟨t, later, hev, _⟩ := hs.1 first (by rw [hact]; exact List.mem_cons_self _ _)
    simp only [Playback_t.blktrace_get_commands, hev]
    split
    · exact ⟨_, rfl⟩
    · exact ⟨_, rfl⟩

theorem candidate_valid_body (E : Env) (distribution : Distribution)
    (max_object_count : Nat) (s s3 : State) (hd : Distribution.valid E distribution)
    (hc : s.candidate_valid E) (h : body E distribution max_object_count s = some s3) :
    s3.candidate_valid E := by
  obtain ⟨s1, s2, h1, h2, h3⟩ := body_spec E distribution max_object_count s s3 h
  have c1 : s1.candidate_valid E := by
    rcases sample_step_spec E distribution s s1 h1 with ⟨_, rfl⟩ | ⟨_, i, hi, rfl⟩
    · exact hc
    · intro j hj
      simp only [Option.some.injEq] at hj
      obtain ⟨i', hi', hlt⟩ := hd ((E.rand s.rand_calls : ℚ) / (E.RAND_MAX : ℚ))
      rw [hi] at hi'
      simp only [Option.some.injEq] at hi'
      omega
  have c2 : s2.candidate_valid E := by
    obtain ⟨i, x, _, _, ⟨_, rfl⟩ | ⟨_, rfl⟩⟩ := admit_step_spec E max_object_count s1 s2 h2
    · exact c1
    · intro j hj
      simp at hj
  rcases drain_step_spec E s2 s3 h3 with ⟨_, rfl⟩ | ⟨_, _, _, _, _, _, _, _, _, hnp, _⟩
  · exact c2
  · intro j hj
    rw [hnp] at hj
    exact c2 j hj

theorem body_progress (E : Env) (distribution : Distribution) (max_object_count : Nat)
    (s : State) (hd : Distribution.valid E distribution) (hs : s.sound)
    (hc : s.candidate_valid E) :
    ∃ s3, body E distribution max_object_count s = some s3 := by
  obtain ⟨s1, i, h1, hi, hlt⟩ := sample_step_progress E distribution s hd hc
  obtain ⟨s2, h2⟩ := admit_step_progress E max_object_count s1 i hi hlt
  obtain ⟨s3, h3⟩ := drain_step_progress E s2
    (admit_step_sound E max_object_count s1 s2 (sample_step_sound E distribution s s1 hs h1) h2)
  exact ⟨s3, by simp [body, h1, h2, h3]⟩

theorem iterate_progress (E : Env) (distribution : Distribution) (max_object_count : Nat)
    (hd : Distribution.valid E distribution) (n : Nat) (s : State) (hs : s.sound)
    (hc : s.candidate_valid E) :
    ∃ s3, iterate E distribution max_object_count n s = some s3 ∧ s3.sound
      ∧ s3.candidate_valid E := by
  induction n generalizing s with
  | zero => exact ⟨s, rfl, hs, hc⟩
  | succ n ih =>
    obtain ⟨s1, h1⟩ := body_progress E distribution max_object_count s hd hs hc
    obtain ⟨s3, h3, hs3, hc3⟩ := ih s1 (body_sound E distribution max_object_count s s1 hs h1)
      (candidate_valid_body E distribution max_object_count s s1 hd hc h1)
    exact ⟨s3, by simp [iterate, h1, h3], hs3, hc3⟩

theorem candidate_valid_initial (E : Env) (pfx : String) :
    (initial_state pfx).candidate_valid E := by
  intro i hi
  simp [initial_state] at hi

theorem do_while_of_iterate (E : Env) (distribution : Distribution) (max_object_count : Nat)
    (fuel N : Nat) (s s3 : State) (h1 : 1 ≤ N) (h2 : N ≤ fuel) (h3 : N < 2 ^ 64)
    (h : iterate E distribution max_object_count N s = some s3) :
    do_while E distribution max_object_count fuel false N s = Loop.exited s3 := by
  induction fuel generalizing N s with
  | zero => omega
  | succ fuel ih =>
    obtain ⟨m, rfl⟩ : ∃ m, N = m + 1 := ⟨N - 1, by omega⟩
    simp only [iterate] at h
    cases hb : body E distribution max_object_count s with
    | none => simp [hb] at h
    | some s1 =>
      simp only [hb, Option.some_bind] at h
      have hdec : (m + 1 + 2 ^ 64 - 1) % 2 ^ 64 = m := by
        have : m + 1 + 2 ^ 64 - 1 = m + 2 ^ 64 := by omega
        rw [this, Nat.add_mod_right]
        exact Nat.mod_eq_of_lt (by omega)
      simp only [do_while, hb, hdec, Bool.false_eq_true, if_false]
      by_cases hm : m > 0
      · simp only [hm, if_true]
        exact ih m s1 (by omega) (by omega) (by omega) h
      · have : m = 0 := by omega
        subst this
        simp only [iterate, Option.some.injEq] at h
        simp [h]

theorem iterate_of_do_while (E : Env) (distribution : Distribution) (max_object_count : Nat)
    (fuel : Nat) (infinite : Bool) (operation_count : Nat) (s s3 : State)
    (h : do_while E distribution max_object_count fuel infinite operation_count s
      = Loop.exited s3) :
    infinite = false ∧ ∃ n, 1 ≤ n
      ∧ iterate E distribution max_object_count n s = some s3 := by
  induction fuel generalizing operation_count s with
  | zero => simp [do_while] at h
  | succ fuel ih =>
    simp only [do_while] at h
    cases hb : body E distribution max_object_count s with
    | none => simp [hb] at h
    | some s1 =>
      simp only [hb] at h
      cases infinite with
      | true =>
        simp only [if_true] at h
        exact absurd (ih _ _ h).1 (by simp)
      | false =>
        simp only [Bool.false_eq_true, if_false] at h
        refine ⟨rfl, ?_⟩
        split at h
        · obtain ⟨_, n, hn, hi⟩ := ih _ _ h
          exact ⟨n + 1, by omega, by simp [iterate, hb, hi]⟩
        · simp only [Loop.exited.injEq] at h
          exact ⟨1, le_refl _, by simp [iterate, hb, h]⟩

theorem generate_iolog_of_iterate (E : Env) (fuel N : Nat) (output_name pfx : String)
    (max_object_count : Nat) (s : State) (h1 : 1 ≤ N) (h2 : N ≤ fuel) (h3 : N < 2 ^ 64)
    (hopen : output_name = "" ∨ E.foutput_good output_name = true)
    (h : iterate E (generate_distribution E.all_players) max_object_count N
      (initial_state pfx) = some s) :
    generate_iolog E fuel output_name pfx N max_object_count
      = Result.returned true (s.output ++ close_on_finish s.active_players) := by
  have hc : ¬ (output_name ≠ "" ∧ E.foutput_good output_name = false) := by
    rcases hopen with h | h
    · simp [h]
    · simp [h]
  have hN : (N == 0) = false := by
    simp only [beq_eq_false_iff_ne, ne_eq]
    omega
  unfold generate_iolog
  rw [if_neg hc]
  simp only [hN]
  rw [do_while_of_iterate E _ max_object_count fuel N _ s h1 h2 h3 h]

theorem iterate_of_generate_iolog (E : Env) (fuel : Nat) (output_name pfx : String)
    (operation_count max_object_count : Nat) (out : List Batch)
    (h : generate_iolog E fuel output_name pfx operation_count max_object_count
      = Result.returned true out) :
    ∃ n s, 1 ≤ n
      ∧ iterate E (generate_distribution E.all_players) max_object_count n
          (initial_state pfx) = some s
      ∧ out = s.output ++ close_on_finish s.active_players := by
  unfold generate_iolog at h
  split at h
  · simp at h
  · simp only at h
    split at h
    · simp at h
    · simp at h
    · rename_i s hloop
      simp only [Result.returned.injEq, true_and] at h
      obtain ⟨_, n, hn, hi⟩ := iterate_of_do_while E _ max_object_count fuel _ _ _ s hloop
      exact ⟨n, s, hn, hi, h.symm⟩

theorem drained_keys_append (xs ys : List Batch) :
    drained_keys (xs ++ ys) = drained_keys xs ++ drained_keys ys := by
  induction xs with
  | nil => rfl
  | cons b rest ih =>
    cases b <;> simp [drained_keys, ih]

theorem drained_keys_close_on_finish (active_players : ActivePlayers) :
    drained_keys (close_on_finish active_players) = [] := by
  induction active_players with
  | nil => rfl
  | cons e rest ih =>
    simp only [close_on_finish, List.map_cons, drained_keys] at ih ⊢
    exact ih

/-! ## The object pool -/

theorem names_count_body (E : Env) (distribution : Distribution) (max_object_count : Nat)
    (hnew : ∀ i x pool t, E.all_players[i]? = some x →
      (E.Playback_new i pool t).2.names_count ≤ pool.names_count + x.object_count)
    (hother : ∀ c pb pool, (E.pool_effect c pb pool).names_count = pool.names_count)
    (s s1 s2 : State) (hs : s.object_pool.names_count ≤ max_object_count)
    (h1 : sample_step E distribution s = some s1)
    (h2 : admit_step E max_object_count s1 = some s2) :
    s2.object_pool.names_count ≤ max_object_count
      ∧ ∀ s3, drain_step E s2 = some s3 → s3.object_pool.names_count ≤ max_object_count := by
  have e1 : s1.object_pool = s.object_pool := by
    rcases sample_step_spec E distribution s s1 h1 with ⟨_, rfl⟩ | ⟨_, i, _, rfl⟩ <;> rfl
  have b2 : s2.object_pool.names_count ≤ max_object_count := by
    obtain ⟨i, x, _, hx, ⟨_, rfl⟩ | ⟨hfit, rfl⟩⟩ := admit_step_spec E max_object_count s1 s2 h2
    · rw [e1]
      exact hs
    · simp only [hother]
      exact le_trans (hnew i x _ _ hx) hfit
  refine ⟨b2, ?_⟩
  intro s3 h3
  rcases drain_step_spec E s2 s3 h3 with ⟨_, rfl⟩ | ⟨_, _, _, _, _, _, _, _, hpool, _⟩
  · exact b2
  · rcases hpool with hpool | hpool
    · rw [hpool]
      simp only [hother]
      exact b2
    · rw [hpool]
      simp only [hother]
      exact b2

/-- C3: if creating a playback instance for a model with object count k raises the pool's
`names_count` by at most k and no other call on an instance changes `names_count`, then
in every state the loop of `generate_iolog` reaches, after every drain (the state after any
number of iterations) and after every admission step (before the drain of the next
iteration), `names_count` is at most `max_object_count`. -/
theorem names_count_le_max_object_count (E : Env) (max_object_count : Nat) (pfx : String)
    (hnew : ∀ i x pool t, E.all_players[i]? = some x →
      (E.Playback_new i pool t).2.names_count ≤ pool.names_count + x.object_count)
    (hother : ∀ c pb pool, (E.pool_effect c pb pool).names_count = pool.names_count)
    (n : Nat) (s : State)
    (hrun : iterate E (generate_distribution E.all_players) max_object_count n
      (initial_state pfx) = some s) :
    s.object_pool.names_count ≤ max_object_count
    ∧ ∀ s1 s2, sample_step E (generate_distribution E.all_players) s = some s1 →
        admit_step E max_object_count s1 = some s2 →
        s2.object_pool.names_count ≤ max_object_count := by
  have hs : s.object_pool.names_count ≤ max_object_count := by
    refine iterate_invariant E _ max_object_count
      (fun a => a.object_pool.names_count ≤ max_object_count) ?_ n _ s ?_ hrun
    · intro a b ha hb
      obtain ⟨s1, s2, h1, h2, h3⟩ := body_spec E _ max_object_count a b hb
      exact (names_count_body E _ max_object_count hnew hother a s1 s2 ha h1 h2).2 b h3
    · simp [initial_state, Playback_objects_t.names_count]
  refine ⟨hs, ?_⟩
  intro s1 s2 h1 h2
  exact (names_count_body E _ max_object_count hnew hother s s1 s2 hs h1 h2).1

/-- A run of three iterations with `two_object_env` and room for three objects, for C3. -/
theorem names_count_le_max_object_count_witness :
    (∀ i x pool t, two_object_env.all_players[i]? = some x →
      (two_object_env.Playback_new i pool t).2.names_count ≤ pool.names_count + x.object_count)
    ∧ (∀ c pb pool, (two_object_env.pool_effect c pb pool).names_count = pool.names_count)
    ∧ ∃ s, iterate two_object_env (generate_distribution two_object_env.all_players) 3 3
          (initial_state "x.") = some s
        ∧ s.object_pool.names_count ≤ 3
        ∧ ∀ s1 s2,
            sample_step two_object_env (generate_distribution two_object_env.all_players) s
              = some s1 →
            admit_step two_object_env 3 s1 = some s2 → s2.object_pool.names_count ≤ 3 := by
  have hnew : ∀ i x pool t, two_object_env.all_players[i]? = some x →
      (two_object_env.Playback_new i pool t).2.names_count
        ≤ pool.names_count + x.object_count := by
    intro i x pool t hx
    cases i with
    | zero =>
      simp only [two_object_env, List.getElem?_cons_zero, Option.some.injEq] at hx
      subst hx
      simp [two_object_env, Playback_objects_t.names_count]
    | succ j => simp [two_object_env] at hx
  have hother : ∀ c pb pool,
      (two_object_env.pool_effect c pb pool).names_count = pool.names_count :=
    fun _ _ _ => rfl
  obtain ⟨s, hs⟩ := Option.isSome_iff_exists.mp
    (by decide! : (iterate two_object_env (generate_distribution two_object_env.all_players)
      3 3 (initial_state "x.")).isSome = true)
  exact ⟨hnew, hother, s, hs,
    names_count_le_max_object_count two_object_env 3 "x." hnew hother 3 s hs⟩

/-! ## Counting drain batches -/

theorem drained_keys_body (E : Env) (distribution : Distribution) (max_object_count : Nat)
    (s s1 s2 s3 : State) (h1 : sample_step E distribution s = some s1)
    (h2 : admit_step E max_object_count s1 = some s2) (h3 : drain_step E s2 = some s3) :
    drained_keys s2.output = drained_keys s.output
    ∧ (s2.active_players = [] → drained_keys s3.output = drained_keys s.output)
    ∧ (s2.active_players ≠ [] → ∃ k, drained_keys s3.output = drained_keys s.output ++ [k]) := by
  have e1 : s1.output = s.output := by
    rcases sample_step_spec E distribution s s1 h1 with ⟨_, rfl⟩ | ⟨_, i, _, rfl⟩ <;> rfl
  have e2 : drained_keys s2.output = drained_keys s.output := by
    obtain ⟨i, x, _, _, ⟨_, rfl⟩ | ⟨_, rfl⟩⟩ := admit_step_spec E max_object_count s1 s2 h2
    · rw [e1]
    · simp only [drained_keys_append, e1]
      simp [drained_keys]
  refine ⟨e2, ?_, ?_⟩
  · intro hnil
    rcases drain_step_spec E s2 s3 h3 with ⟨_, rfl⟩ | ⟨k, pb, t, later, rest, hact, _⟩
    · exact e2
    · rw [hact] at hnil
      exact absurd hnil (by simp)
  · intro hne
    rcases drain_step_spec E s2 s3 h3 with ⟨hnil, _⟩ | ⟨k, pb, t, later, rest, _, _, hout, _⟩
    · exact absurd hnil hne
    · refine ⟨k, ?_⟩
      rw [hout, drained_keys_append, e2]
      simp [drained_keys]

theorem drained_keys_length_iterate (E : Env) (distribution : Distribution)
    (max_object_count : Nat) (pfx : String) (n : Nat) (s : State)
    (h : iterate E distribution max_object_count n (initial_state pfx) = some s) :
    (drained_keys s.output).length ≤ n
    ∧ ((∀ m sm s1 s2, m < n →
          iterate E distribution max_object_count m (initial_state pfx) = some sm →
          sample_step E distribution sm = some s1 →
          admit_step E max_object_count s1 = some s2 → s2.active_players ≠ []) →
        (drained_keys s.output).length = n) := by
  induction n generalizing s with
  | zero =>
    simp only [iterate, Option.some.injEq] at h
    subst h
    simp [initial_state, drained_keys]
  | succ n ih =>
    rw [iterate_succ_last] at h
    cases hn : iterate E distribution max_object_count n (initial_state pfx) with
    | none => simp [hn] at h
    | some sn =>
      simp only [hn, Option.some_bind] at h
      obtain ⟨s1, s2, h1, h2, h3⟩ := body_spec E distribution max_object_count sn s h
      obtain ⟨_, hnil, hcons⟩ := drained_keys_body E distribution max_object_count sn s1 s2 s h1 h2 h3
      obtain ⟨ihle, iheq⟩ := ih sn hn
      constructor
      · by_cases hact : s2.active_players = []
        · rw [hnil hact]
          omega
        · obtain ⟨k, hk⟩ := hcons hact
          rw [hk, List.length_append]
          simp only [List.length_singleton]
          omega
      · intro hbusy
        have hact : s2.active_players ≠ [] := hbusy n sn s1 s2 (by omega) hn h1 h2
        obtain ⟨k, hk⟩ := hcons hact
        rw [hk, List.length_append]
        simp only [List.length_singleton]
        rw [iheq (fun m sm a b hm => hbusy m sm a b (by omega))]

/-- C4 (as stated) fails: one model that needs two objects, `max_object_count = 1` and
`operation_count = 1`; the candidate never fits, the run returns after one iteration and
its output holds the header only, so no drain batch is written instead of one. -/
theorem drain_count_counterexample :
    generate_iolog two_object_env 1 "" "x." 1 1 = Result.returned true [Batch.header]
    ∧ (drained_keys [Batch.header]).length ≠ 1 := by
  decide!

/-- C4 (amended): for a non-empty model set with positive lengths and a finite
`operation_count = N ≥ 1`, `generate_iolog` executes the loop body exactly `N` times and
returns; its output holds at most `N` drain batches, and exactly `N` if the active set is
non-empty at the drain step of each of the `N` iterations. -/
theorem generate_iolog_drain_count (E : Env) (hne : E.all_players ≠ [])
    (hpos : ∀ x ∈ E.all_players, 0 < x.length) (fuel N : Nat) (output_name pfx : String)
    (max_object_count : Nat) (h1 : 1 ≤ N) (h2 : N ≤ fuel) (h3 : N < 2 ^ 64)
    (hopen : output_name = "" ∨ E.foutput_good output_name = true) :
    ∃ s, iterate E (generate_distribution E.all_players) max_object_count N
          (initial_state pfx) = some s
      ∧ generate_iolog E fuel output_name pfx N max_object_count
          = Result.returned true (s.output ++ close_on_finish s.active_players)
      ∧ (drained_keys (s.output ++ close_on_finish s.active_players)).length ≤ N
      ∧ ((∀ m sm s1 s2, m < N →
            iterate E (generate_distribution E.all_players) max_object_count m
              (initial_state pfx) = some sm →
            sample_step E (generate_distribution E.all_players) sm = some s1 →
            admit_step E max_object_count s1 = some s2 → s2.active_players ≠ []) →
          (drained_keys (s.output ++ close_on_finish s.active_players)).length = N) := by
  obtain ⟨s, hs, _, _⟩ := iterate_progress E _ max_object_count
    (generate_distribution_valid E hne hpos) N (initial_state pfx) (sound_initial pfx)
    (candidate_valid_initial E pfx)
  refine ⟨s, hs, generate_iolog_of_iterate E fuel N output_name pfx max_object_count s h1 h2 h3
    hopen hs, ?_⟩
  rw [drained_keys_append, drained_keys_close_on_finish, List.append_nil]
  exact drained_keys_length_iterate E _ max_object_count pfx N s hs

/-- Three iterations with `two_event_env`, for C4. -/
theorem generate_iolog_drain_count_witness :
    two_event_env.all_players ≠ [] ∧ (∀ x ∈ two_event_env.all_players, 0 < x.length)
    ∧ ∃ s, iterate two_event_env (generate_distribution two_event_env.all_players) 10 3
          (initial_state "x.") = some s
      ∧ generate_iolog two_event_env 3 "" "x." 3 10
          = Result.returned true (s.output ++ close_on_finish s.active_players)
      ∧ (drained_keys (s.output ++ close_on_finish s.active_players)).length ≤ 3
      ∧ ((∀ m sm s1 s2, m < 3 →
            iterate two_event_env (generate_distribution two_event_env.all_players) 10 m
              (initial_state "x.") = some sm →
            sample_step two_event_env (generate_distribution two_event_env.all_players) sm
              = some s1 →
            admit_step two_event_env 10 s1 = some s2 → s2.active_players ≠ []) →
          (drained_keys (s.output ++ close_on_finish s.active_players)).length = 3) :=
  ⟨by decide, by decide,
    generate_iolog_drain_count two_event_env (by decide) (by decide) 3 3 "" "x." 10
      (by decide) (by decide) (by norm_num) (Or.inl rfl)⟩

/-! ## Deferred candidates -/

/-- C5 (as stated) fails: with `deferring_env` and `max_object_count = 1` the first draw
selects model 1, which needs five objects and is deferred. After the second iteration the
candidate is still model 1 and `rand()` has been called once, although the next draw would
select model 0, which fits. -/
theorem deferred_candidate_counterexample :
    (iterate deferring_env (generate_distribution deferring_env.all_players) 1 1
        (initial_state "x.")).map (fun s => (s.next_player, s.rand_calls, s.output))
      = some (some 1, 1, [Batch.header])
    ∧ (iterate deferring_env (generate_distribution deferring_env.all_players) 1 2
        (initial_state "x.")).map (fun s => (s.next_player, s.rand_calls, s.output))
      = some (some 1, 1, [Batch.header])
    ∧ select_player (generate_distribution deferring_env.all_players)
        ((deferring_env.rand 1 : ℚ) / (deferring_env.RAND_MAX : ℚ)) = some 0
    ∧ deferring_env.all_players[0]? = some ⟨10, 1⟩ := by
  decide!

/-- C5 (amended): when the candidate is deferred because `names_count + object_count`
exceeds `max_object_count`, it stays the pending candidate: after the iteration
`next_player` still refers to it and no further call of `rand()` has been made, and the
sampling step of the next iteration leaves the state as it is (the same candidate is
retried, without a new draw). -/
theorem deferred_candidate_retried (E : Env) (distribution : Distribution)
    (max_object_count : Nat) (s s1 s3 : State) (i : Nat) (x : Player_t)
    (h1 : sample_step E distribution s = some s1) (hi : s1.next_player = some i)
    (hx : E.all_players[i]? = some x)
    (hfull : max_object_count < s1.object_pool.names_count + x.object_count)
    (hbody : body E distribution max_object_count s = some s3) :
    s3.next_player = some i ∧ s3.rand_calls = s1.rand_calls
      ∧ sample_step E distribution s3 = some s3 := by
  obtain ⟨s1', s2, h1', h2, h3⟩ := body_spec E distribution max_object_count s s3 hbody
  rw [h1] at h1'
  simp only [Option.some.injEq] at h1'
  subst h1'
  have e2 : s2 = s1 := by
    obtain ⟨j, y, hj, hy, ⟨_, hs⟩ | ⟨hfit, _⟩⟩ := admit_step_spec E max_object_count s1 s2 h2
    · exact hs
    · rw [hi] at hj
      simp only [Option.some.injEq] at hj
      subst hj
      rw [hx] at hy
      simp only [Option.some.injEq] at hy
      subst hy
      omega
  subst e2
  have e3 : s3.next_player = some i ∧ s3.rand_calls = s2.rand_calls := by
    rcases drain_step_spec E s2 s3 h3 with ⟨_, rfl⟩ | ⟨_, _, _, _, _, _, _, _, _, hnp, hrc, _⟩
    · exact ⟨hi, rfl⟩
    · exact ⟨hnp.trans hi, hrc⟩
  refine ⟨e3.1, e3.2, ?_⟩
  unfold sample_step
  rw [e3.1]

/-- The first iteration with `deferring_env` and `max_object_count = 1`, for C5. -/
theorem deferred_candidate_retried_witness :
    ∃ s1 : State,
      sample_step deferring_env (generate_distribution deferring_env.all_players)
          (initial_state "x.") = some s1
      ∧ s1.next_player = some 1
      ∧ deferring_env.all_players[1]? = some ⟨100, 5⟩
      ∧ 1 < s1.object_pool.names_count + (⟨100, 5⟩ : Player_t).object_count
      ∧ body deferring_env (generate_distribution deferring_env.all_players) 1
          (initial_state "x.") = some s1
      ∧ s1.next_player = some 1 ∧ s1.rand_calls = s1.rand_calls
      ∧ sample_step deferring_env (generate_distribution deferring_env.all_players) s1
          = some s1 := by
  have h1 : sample_step deferring_env (generate_distribution deferring_env.all_players)
      (initial_state "x.")
      = some { initial_state "x." with next_player := some 1, rand_calls := 1 } := by decide!
  have hb : body deferring_env (generate_distribution deferring_env.all_players) 1
      (initial_state "x.")
      = some { initial_state "x." with next_player := some 1, rand_calls := 1 } := by decide!
  exact ⟨_, h1, rfl, rfl, by decide, hb,
    deferred_candidate_retried deferring_env _ 1 (initial_state "x.") _ _ 1 ⟨100, 5⟩ h1 rfl rfl
      (by decide) hb⟩

/-! ## Time order of the drained keys -/

theorem admission_time_spec (s : State) (hs : s.sound) (ht : s.timed)
    (hbusy : s.active_players = [] → drained_keys s.output = []) :
    admission_time s.active_players < 2 ^ 63
    ∧ (∀ e ∈ s.active_players, ((admission_time s.active_players : Nat) : Int) ≤ e.1)
    ∧ (∀ d ∈ drained_keys s.output, d ≤ ((admission_time s.active_players : Nat) : Int)) := by
  obtain ⟨h1, h2, _⟩ := hs
  obtain ⟨t1, _, t3⟩ := ht
  cases hact : s.active_players with
  | nil =>
    refine ⟨by simp [admission_time], by simp, ?_⟩
    rw [hbusy hact]
    simp
  | cons first rest =>
    rw [hact] at h1 h2 t1 t3
    obtain ⟨t, later, hev, hk⟩ := h1 first (List.mem_cons_self _ _)
    have hlt : t < 2 ^ 63 := (t1 first (List.mem_cons_self _ _)).2 t (by rw [hev]; simp)
    rw [to_int64_of_lt t hlt] at hk
    have hadm : admission_time (first :: rest) = t := by
      simp only [admission_time, hk]
      exact to_uint64_of_lt t hlt
    rw [hadm, ← hk]
    refine ⟨hlt, ?_, ?_⟩
    · intro e he
      rcases List.mem_cons.mp he with rfl | he
      · exact le_refl _
      · exact (List.pairwise_cons.mp h2).1 e he
    · intro d hd
      exact t3 d hd first (List.mem_cons_self _ _)

theorem timed_admit_step (E : Env) (max_object_count : Nat) (s s2 : State)
    (hw : well_timed E) (hs : s.sound) (ht : s.timed)
    (hbusy : s.active_players = [] → drained_keys s.output = [])
    (h : admit_step E max_object_count s = some s2) : s2.timed := by
  obtain ⟨i, x, _, _, ⟨_, rfl⟩ | ⟨_, rfl⟩⟩ := admit_step_spec E max_object_count s s2 h
  · exact ht
  · obtain ⟨hlt, hmin, hmax⟩ := admission_time_spec s hs ht hbusy
    obtain ⟨hchain, hrange⟩ := hw i s.object_pool (admission_time s.active_players) hlt
    rw [List.chain_cons] at hchain
    have hfirst := hrange _ (List.mem_cons_self _ _)
    obtain ⟨t1, t2, t3⟩ := ht
    refine ⟨?_, ?_, ?_⟩
    · intro e he
      rcases (mem_mm_emplace _ _ _ e).mp he with rfl | he
      · exact ⟨hchain.2, hrange⟩
      · exact t1 e he
    · simp only [drained_keys_append]
      simpa [drained_keys] using t2
    · intro d hd e he
      simp only [drained_keys_append] at hd
      have hd' : d ∈ drained_keys s.output := by simpa [drained_keys] using hd
      rcases (mem_mm_emplace _ _ _ e).mp he with rfl | he
      · simp only
        rw [to_int64_of_lt _ hfirst]
        have := hmax d hd'
        have h2 : ((admission_time s.active_players : Nat) : Int)
            ≤ (((E.Playback_new i s.object_pool (admission_time s.active_players)).1.1 : Nat)
              : Int) := by exact_mod_cast hchain.1
        omega
      · exact t3 d hd' e he

theorem timed_drain_step (E : Env) (s s3 : State) (hs : s.sound) (ht : s.timed)
    (h : drain_step E s = some s3) : s3.timed := by
  rcases drain_step_active E s s3 hs h with ⟨_, rfl⟩ |
    ⟨k, pb, t, later, rest, hact, hev, hk, hout, _, hcase⟩
  · exact ht
  · obtain ⟨_, h2, _⟩ := hs
    obtain ⟨t1, t2, t3⟩ := ht
    rw [hact] at h2 t1 t3
    rw [List.pairwise_cons] at h2
    obtain ⟨hch, hrange⟩ := t1 (k, pb) (List.mem_cons_self _ _)
    simp only [hev] at hch hrange
    have htlt : t < 2 ^ 63 := hrange t (List.mem_cons_self _ _)
    rw [to_int64_of_lt t htlt] at hk
    have hdr : drained_keys s3.output = drained_keys s.output ++ [k] := by
      rw [hout, drained_keys_append]
      simp [drained_keys]
    have hsorted : (drained_keys s3.output).Pairwise (fun a b => a ≤ b) := by
      rw [hdr, List.pairwise_append]
      refine ⟨t2, by simp, ?_⟩
      intro a ha b hb
      simp only [List.mem_singleton] at hb
      rw [hb]
      exact t3 a ha (k, pb) (List.mem_cons_self _ _)
    have hrest : ∀ d ∈ drained_keys s3.output, ∀ e ∈ rest, d ≤ e.1 := by
      intro d hd e he
      rw [hdr, List.mem_append, List.mem_singleton] at hd
      rcases hd with hd | hd
      · exact t3 d hd e (List.mem_cons_of_mem _ he)
      · rw [hd]
        exact h2.1 e he
    rcases hcase with ⟨_, ha⟩ | ⟨u, later1, hl, ha⟩
    · refine ⟨?_, hsorted, ?_⟩
      · intro e he
        rw [ha] at he
        exact t1 e (List.mem_cons_of_mem _ he)
      · intro d hd e he
        rw [ha] at he
        exact hrest d hd e he
    · subst hl
      have hult : u < 2 ^ 63 := hrange u (by simp)
      have htu : t ≤ u := by
        rw [List.chain'_cons] at hch
        exact hch.1
      refine ⟨?_, hsorted, ?_⟩
      · intro e he
        rw [ha] at he
        rcases (mem_mm_emplace _ _ _ e).mp he with rfl | he
        · refine ⟨?_, ?_⟩
          · rw [List.chain'_cons] at hch
            exact hch.2
          · intro y hy
            exact hrange y (List.mem_cons_of_mem _ hy)
        · exact t1 e (List.mem_cons_of_mem _ he)
      · intro d hd e he
        rw [ha] at he
        rcases (mem_mm_emplace _ _ _ e).mp he with rfl | he
        · simp only
          rw [to_int64_of_lt u hult]
          rw [hdr, List.mem_append, List.mem_singleton] at hd
          have htu' : (t : Int) ≤ (u : Int) := by exact_mod_cast htu
          rcases hd with hd | hd
          · have := t3 d hd (k, pb) (List.mem_cons_self _ _)
            simp only at this
            omega
          · omega
        · exact hrest d hd e he

theorem timed_body (E : Env) (distribution : Distribution) (max_object_count : Nat)
    (s s3 : State) (hw : well_timed E) (hs : s.sound) (ht : s.timed)
    (hbusy : s.active_players = [] → drained_keys s.output = [])
    (h : body E distribution max_object_count s = some s3) : s3.timed := by
  obtain ⟨s1, s2, h1, h2, h3⟩ := body_spec E distribution max_object_count s s3 h
  have hs1 := sample_step_sound E distribution s s1 hs h1
  have e1 : s1.timed ∧ (s1.active_players = [] → drained_keys s1.output = []) := by
    rcases sample_step_spec E distribution s s1 h1 with ⟨_, rfl⟩ | ⟨_, i, _, rfl⟩
    · exact ⟨ht, hbusy⟩
    · exact ⟨ht, hbusy⟩
  exact timed_drain_step E s2 s3 (admit_step_sound E max_object_count s1 s2 hs1 h2)
    (timed_admit_step E max_object_count s1 s2 hw hs1 e1.1 e1.2 h2) h3

theorem timed_initial (pfx : String) : (initial_state pfx).timed := by
  refine ⟨?_, ?_, ?_⟩ <;> simp [initial_state, drained_keys]

theorem timed_iterate (E : Env) (distribution : Distribution) (max_object_count : Nat)
    (pfx : String) (hw : well_timed E) (n : Nat) (s : State)
    (hrun : iterate E distribution max_object_count n (initial_state pfx) = some s)
    (hbusy : ∀ m sm, m < n →
      iterate E distribution max_object_count m (initial_state pfx) = some sm →
      sm.active_players = [] → drained_keys sm.output = []) : s.timed := by
  induction n generalizing s with
  | zero =>
    simp only [iterate, Option.some.injEq] at hrun
    subst hrun
    exact timed_initial pfx
  | succ n ih =>
    rw [iterate_succ_last] at hrun
    cases hn : iterate E distribution max_object_count n (initial_state pfx) with
    | none => simp [hn] at hrun
    | some sn =>
      simp only [hn, Option.some_bind] at hrun
      exact timed_body E distribution max_object_count sn s hw
        (iterate_sound E distribution max_object_count n _ sn (sound_initial pfx) hn)
        (ih sn hn (fun m sm hm => hbusy m sm (by omega)))
        (hbusy n sn (by omega) hn) hrun

/-- C1 (as stated) fails: with `single_event_env` every instance reports a single event
time that is not earlier than its admission time, yet the drained keys are 5 and then 1:
the first instance is drained at 5 and leaves the active set empty, so the second one is
admitted at time 0 and drained at 1. -/
theorem drained_keys_counterexample :
    times_monotone single_event_env
    ∧ generate_iolog single_event_env 2 "" "x." 2 10
        = Result.returned true [Batch.header, Batch.opened 0, Batch.commands 0 5,
            Batch.opened 1, Batch.commands 1 1]
    ∧ drained_keys [Batch.header, Batch.opened 0, Batch.commands 0 5,
        Batch.opened 1, Batch.commands 1 1] = [5, 1]
    ∧ ¬ ([5, 1] : List Int).Pairwise (fun a b => a ≤ b) := by
  refine ⟨?_, by decide!, by decide, by decide⟩
  intro i pool t
  simp [single_event_env]

/-- C1 (amended): if every playback instance admitted at a time below 2^63 reports event
times that are non-decreasing, never earlier than its admission time and below 2^63, then
in every run of the loop in which the active set is not empty at the start of an iteration
that follows a drain step, the keys removed in successive drain steps are non-decreasing. -/
theorem drained_keys_sorted (E : Env) (max_object_count : Nat) (pfx : String)
    (hw : well_timed E) (n : Nat) (s : State)
    (hrun : iterate E (generate_distribution E.all_players) max_object_count n
      (initial_state pfx) = some s)
    (hbusy : ∀ m sm, m < n →
      iterate E (generate_distribution E.all_players) max_object_count m
        (initial_state pfx) = some sm →
      sm.active_players = [] → drained_keys sm.output = []) :
    (drained_keys s.output).Pairwise (fun a b => a ≤ b) :=
  (timed_iterate E _ max_object_count pfx hw n s hrun hbusy).2.1

/-- Three iterations with `two_event_env`, for C1: the drained keys are 10, 20, 20. -/
theorem drained_keys_sorted_witness :
    well_timed two_event_env
    ∧ (∀ m sm, m < 3 →
        iterate two_event_env (generate_distribution two_event_env.all_players) 10 m
          (initial_state "x.") = some sm →
        sm.active_players = [] → drained_keys sm.output = [])
    ∧ ∃ s, iterate two_event_env (generate_distribution two_event_env.all_players) 10 3
          (initial_state "x.") = some s
        ∧ drained_keys s.output = [10, 20, 20]
        ∧ (drained_keys s.output).Pairwise (fun a b => a ≤ b) := by
  have hw : well_timed two_event_env := by
    intro i pool t ht
    simp only [two_event_env, List.chain_cons, List.Chain.nil, and_true, List.mem_cons,
      List.mem_singleton, List.not_mem_nil, or_false]
    refine ⟨⟨by omega, by omega⟩, ?_⟩
    intro x hx
    rcases hx with rfl | rfl <;> omega
  have hall : ∀ m, m < 3 →
      (iterate two_event_env (generate_distribution two_event_env.all_players) 10 m
        (initial_state "x.")).all
        (fun sm => decide (sm.active_players = [] → drained_keys sm.output = [])) = true := by
    decide!
  have hbusy : ∀ m sm, m < 3 →
      iterate two_event_env (generate_distribution two_event_env.all_players) 10 m
        (initial_state "x.") = some sm →
      sm.active_players = [] → drained_keys sm.output = [] := by
    intro m sm hm hrun
    have := hall m hm
    rw [hrun] at this
    exact of_decide_eq_true this
  have hkeys : (iterate two_event_env (generate_distribution two_event_env.all_players) 10 3
      (initial_state "x.")).map (fun s => drained_keys s.output) = some [10, 20, 20] := by
    decide!
  obtain ⟨s, hs, hk⟩ := Option.map_eq_some'.mp hkeys
  exact ⟨hw, hbusy, s, hs, hk, drained_keys_sorted two_event_env 10 "x." hw 3 s hs hbusy⟩

/-! ## Close batches -/

theorem count_closed_close_on_finish (active_players : ActivePlayers) (id : Nat) :
    (close_on_finish active_players).count (Batch.closed id)
      = (active_players.map (fun e => e.2.id)).count id := by
  induction active_players with
  | nil => rfl
  | cons e rest ih =>
    simp only [close_on_finish, List.map_cons, List.count_cons] at ih ⊢
    rw [ih]
    simp

theorem countP_is_closed_close_on_finish (active_players : ActivePlayers) :
    (close_on_finish active_players).countP Batch.is_closed = active_players.length := by
  induction active_players with
  | nil => rfl
  | cons e rest ih =>
    simp only [close_on_finish, List.map_cons, List.length_cons] at ih ⊢
    rw [List.countP_cons_of_pos _ _ (by rfl), ih]

/-- C6 (as stated) fails: in the run of two iterations with `single_event_env` the two
admitted instances (their open batches are in the output) run out of events, and the run
returns without a close batch for either of them. -/
theorem close_counterexample :
    generate_iolog single_event_env 2 "" "x." 2 10
        = Result.returned true [Batch.header, Batch.opened 0, Batch.commands 0 5,
            Batch.opened 1, Batch.commands 1 1]
    ∧ Batch.opened 0 ∈ [Batch.header, Batch.opened 0, Batch.commands 0 5,
        Batch.opened 1, Batch.commands 1 1]
    ∧ [Batch.header, Batch.opened 0, Batch.commands 0 5,
        Batch.opened 1, Batch.commands 1 1].count (Batch.closed 0) = 0 := by
  decide!

/-- C7: in every run of `generate_iolog` that returns after the loop, the output is what
the loop wrote, which holds no close batch, followed by one close batch for each entry
that is left in the active set (distinct instances), and by nothing else; so with N
entries left the output ends with exactly N close batches, all after the last drain
batch. -/
theorem shutdown_closes_active (E : Env) (fuel : Nat) (output_name pfx : String)
    (operation_count max_object_count : Nat) (out : List Batch)
    (h : generate_iolog E fuel output_name pfx operation_count max_object_count
      = Result.returned true out) :
    ∃ n s, 1 ≤ n
      ∧ iterate E (generate_distribution E.all_players) max_object_count n
          (initial_state pfx) = some s
      ∧ out = s.output ++ s.active_players.map (fun e => Batch.closed e.2.id)
      ∧ (s.active_players.map (fun e => Batch.closed e.2.id)).length
          = s.active_players.length
      ∧ (s.active_players.map (fun e => e.2.id)).Nodup
      ∧ (∀ b ∈ s.output, b.is_closed = false)
      ∧ out.countP Batch.is_closed = s.active_players.length
      ∧ drained_keys out = drained_keys s.output := by
  obtain ⟨n, s, hn, hs, hout⟩ := iterate_of_generate_iolog E fuel output_name pfx
    operation_count max_object_count out h
  obtain ⟨_, _, hnodup, _, hclosed⟩ :=
    iterate_sound E _ max_object_count n _ s (sound_initial pfx) hs
  have hloop : ∀ b ∈ s.output, b.is_closed = false := by
    intro b hb
    cases b with
    | closed id => exact absurd rfl (hclosed _ hb id)
    | header => rfl
    | opened id => rfl
    | commands id key => rfl
  refine ⟨n, s, hn, hs, hout, by simp, hnodup, hloop, ?_, ?_⟩
  · rw [hout, List.countP_append, countP_is_closed_close_on_finish]
    have : s.output.countP Batch.is_closed = 0 := by
      rw [List.countP_eq_zero]
      intro b hb
      simp [hloop b hb]
    omega
  · rw [hout, drained_keys_append, drained_keys_close_on_finish, List.append_nil]

/-- The run of three iterations with `two_event_env`, which leaves two instances in the
active set, for C7. -/
theorem shutdown_closes_active_witness :
    generate_iolog two_event_env 3 "" "x." 3 10
        = Result.returned true [Batch.header, Batch.opened 0, Batch.commands 0 10,
            Batch.opened 1, Batch.commands 0 20, Batch.opened 2, Batch.commands 1 20,
            Batch.closed 2, Batch.closed 1]
    ∧ ∃ n s, 1 ≤ n
      ∧ iterate two_event_env (generate_distribution two_event_env.all_players) 10 n
          (initial_state "x.") = some s
      ∧ [Batch.header, Batch.opened 0, Batch.commands 0 10,
            Batch.opened 1, Batch.commands 0 20, Batch.opened 2, Batch.commands 1 20,
            Batch.closed 2, Batch.closed 1]
          = s.output ++ s.active_players.map (fun e => Batch.closed e.2.id)
      ∧ (s.active_players.map (fun e => Batch.closed e.2.id)).length
          = s.active_players.length
      ∧ (s.active_players.map (fun e => e.2.id)).Nodup
      ∧ (∀ b ∈ s.output, b.is_closed = false)
      ∧ [Batch.header, Batch.opened 0, Batch.commands 0 10,
            Batch.opened 1, Batch.commands 0 20, Batch.opened 2, Batch.commands 1 20,
            Batch.closed 2, Batch.closed 1].countP Batch.is_closed = s.active_players.length
      ∧ drained_keys [Batch.header, Batch.opened 0, Batch.commands 0 10,
            Batch.opened 1, Batch.commands 0 20, Batch.opened 2, Batch.commands 1 20,
            Batch.closed 2, Batch.closed 1] = drained_keys s.output :=
  ⟨by decide!, shutdown_closes_active two_event_env 3 "" "x." 3 10 _ (by decide!)⟩

/-! ## A single model, one operation -/

theorem select_player_single (v : ℚ) (x : Nat) : select_player [(0, x)] v = some x := by
  unfold select_player lower_bound
  by_cases h : (0 : ℚ) < v
  · simp [List.dropWhile, h]
  · simp [List.dropWhile, h]

theorem iterate_one (E : Env) (distribution : Distribution) (max_object_count : Nat)
    (s : State) :
    iterate E distribution max_object_count 1 s = body E distribution max_object_count s := by
  simp only [iterate]
  cases body E distribution max_object_count s <;> rfl

theorem body_single_model (E : Env) (hE : E.all_players = [⟨10, 2⟩]) (pfx : String) :
    body E (generate_distribution E.all_players) 10 (initial_state pfx)
      = some
        { output := [Batch.header, Batch.opened 0,
            Batch.commands 0 (to_int64 (E.Playback_new 0 ⟨pfx, []⟩ 0).1.1)]
          object_pool :=
            (if (E.Playback_new 0 ⟨pfx, []⟩ 0).1.2 = [] then
              E.pool_effect Call.destructor
                ⟨0, 0, (E.Playback_new 0 ⟨pfx, []⟩ 0).1.2⟩
            else id)
              (E.pool_effect Call.blktrace_get_next_time
                ⟨0, 0, (E.Playback_new 0 ⟨pfx, []⟩ 0).1.2⟩
                (E.pool_effect Call.blktrace_get_commands
                  ⟨0, 0, (E.Playback_new 0 ⟨pfx, []⟩ 0).1.2⟩
                  (E.pool_effect Call.blktrace_open
                    ⟨0, 0, (E.Playback_new 0 ⟨pfx, []⟩ 0).1.1 ::
                      (E.Playback_new 0 ⟨pfx, []⟩ 0).1.2⟩
                    (E.pool_effect Call.blktrace_get_next_time
                      ⟨0, 0, (E.Playback_new 0 ⟨pfx, []⟩ 0).1.1 ::
                        (E.Playback_new 0 ⟨pfx, []⟩ 0).1.2⟩
                      (E.Playback_new 0 ⟨pfx, []⟩ 0).2))))
          next_player := none
          next_time :=
            match (E.Playback_new 0 ⟨pfx, []⟩ 0).1.2 with
            | [] => 0
            | t :: _ => t % 2 ^ 64
          rand_calls := 1
          admitted := 1
          active_players :=
            match (E.Playback_new 0 ⟨pfx, []⟩ 0).1.2 with
            | [] => []
            | t :: later => [(to_int64 t, ⟨0, 0, t :: later⟩)] } := by
  have hd : generate_distribution E.all_players = [(0, 0)] := by
    rw [hE]
    decide!
  rw [hd]
  cases hl : (E.Playback_new 0 ⟨pfx, []⟩ 0).1.2 with
  | nil =>
    simp [-Prod.mk_zero_zero, body, sample_step, admit_step, drain_step, initial_state,
      select_player_single, hE,
      Playback_objects_t.names_count, admission_time, Playback_t.blktrace_get_next_time,
      Playback_t.blktrace_get_commands, mm_emplace, hl]
  | cons t later =>
    simp [-Prod.mk_zero_zero, body, sample_step, admit_step, drain_step, initial_state,
      select_player_single, hE,
      Playback_objects_t.names_count, admission_time, Playback_t.blktrace_get_next_time,
      Playback_t.blktrace_get_commands, mm_emplace, hl]
    by_cases hk : to_int64 t < to_int64 (E.Playback_new 0 ⟨pfx, []⟩ 0).1.1
    · simp [hk, mm_emplace]
    · simp [hk, mm_emplace]

/-- C11: with a single model of length 10 that needs 2 objects, `operation_count = 1` and
`max_object_count = 10`, for every stream of draws and whatever the playback instance does,
`generate_iolog` returns an output that starts with the header line, followed by exactly
one open batch (instance 0) and exactly one drain batch of that instance; the only thing
after them is the shutdown close of that instance, written if it has events left. -/
theorem generate_iolog_single_model (E : Env) (hE : E.all_players = [⟨10, 2⟩]) (fuel : Nat)
    (hfuel : 1 ≤ fuel) (output_name pfx : String)
    (hopen : output_name = "" ∨ E.foutput_good output_name = true) :
    generate_iolog E fuel output_name pfx 1 10
      = Result.returned true
          (Batch.header :: Batch.opened 0
            :: Batch.commands 0 (to_int64 (E.Playback_new 0 ⟨pfx, []⟩ 0).1.1)
            :: (if (E.Playback_new 0 ⟨pfx, []⟩ 0).1.2 = [] then [] else [Batch.closed 0])) := by
  have hb := body_single_model E hE pfx
  have hi := (iterate_one E (generate_distribution E.all_players) 10 (initial_state pfx)).trans
    hb
  rw [generate_iolog_of_iterate E fuel 1 output_name pfx 10 _ (le_refl _) hfuel (by norm_num)
    hopen hi]
  cases hl : (E.Playback_new 0 ⟨pfx, []⟩ 0).1.2 with
  | nil => simp [close_on_finish]
  | cons t later => simp [close_on_finish]

/-- The run with `two_object_env`, whose only model has length 10 and needs 2 objects, for
C11. -/
theorem generate_iolog_single_model_witness :
    two_object_env.all_players = [⟨10, 2⟩]
    ∧ generate_iolog two_object_env 1 "" "x." 1 10
      = Result.returned true [Batch.header, Batch.opened 0, Batch.commands 0 1, Batch.closed 0] := by
  refine ⟨rfl, ?_⟩
  have h := generate_iolog_single_model two_object_env rfl 1 (le_refl _) "" "x." (Or.inl rfl)
  rw [h]
  decide!

/-! ## The sampling step on any table -/

theorem map_emplace_ne_nil (k : ℚ) (x : Nat) (d : Distribution) : map_emplace k x d ≠ [] := by
  cases d with
  | nil => simp [map_emplace]
  | cons e rest =>
    unfold map_emplace
    split
    · simp
    · split <;> simp

theorem mem_map_emplace (k : ℚ) (x : Nat) (d : Distribution) (e : ℚ × Nat)
    (h : e ∈ map_emplace k x d) : e = (k, x) ∨ e ∈ d := by
  induction d with
  | nil =>
    simp only [map_emplace, List.mem_singleton] at h
    exact Or.inl h
  | cons a rest ih =>
    unfold map_emplace at h
    split at h
    · simp only [List.mem_cons] at h ⊢
      tauto
    · split at h
      · exact Or.inr h
      · simp only [List.mem_cons] at h ⊢
        rcases h with h | h
        · exact Or.inr (Or.inl h)
        · rcases ih h with h | h
          · exact Or.inl h
          · exact Or.inr (Or.inr h)

theorem map_emplace_sorted (k : ℚ) (x : Nat) (d : Distribution)
    (h : (d.map Prod.fst).Pairwise (fun a b => a < b)) :
    ((map_emplace k x d).map Prod.fst).Pairwise (fun a b => a < b) := by
  induction d with
  | nil => simp [map_emplace]
  | cons a rest ih =>
    simp only [List.map_cons, List.pairwise_cons] at h
    unfold map_emplace
    split
    · rename_i hlt
      simp only [List.map_cons, List.pairwise_cons]
      refine ⟨?_, h⟩
      intro b hb
      rcases List.mem_cons.mp hb with rfl | hb
      · exact hlt
      · exact lt_trans hlt (h.1 b hb)
    · rename_i hge
      split
      · simp only [List.map_cons, List.pairwise_cons]
        exact h
      · rename_i hne
        simp only [List.map_cons, List.pairwise_cons]
        refine ⟨?_, ih h.2⟩
        intro b hb
        obtain ⟨e, he, rfl⟩ := List.mem_map.mp hb
        rcases mem_map_emplace k x rest e he with rfl | he
        · exact lt_of_le_of_ne (not_lt.mp hge) (fun h' => hne h'.symm)
        · exact h.1 e.1 (List.mem_map.mpr ⟨e, he, rfl⟩)

theorem distribution_loop_spec (M : Nat) (S : ℚ) (xs : List Player_t) (i : Nat) (c : ℚ)
    (d : Distribution) (hd : (d.map Prod.fst).Pairwise (fun a b => a < b))
    (hne : xs ≠ [] ∨ d ≠ []) :
    distribution_loop M S xs i c d ≠ []
    ∧ ((distribution_loop M S xs i c d).map Prod.fst).Pairwise (fun a b => a < b)
    ∧ ∀ e ∈ distribution_loop M S xs i c d, e ∈ d ∨ (i ≤ e.2 ∧ e.2 < i + xs.length) := by
  induction xs generalizing i c d with
  | nil =>
    simp only [distribution_loop]
    refine ⟨?_, hd, fun e he => Or.inl he⟩
    rcases hne with h | h
    · exact absurd rfl h
    · exact h
  | cons x rest ih =>
    simp only [distribution_loop]
    obtain ⟨h1, h2, h3⟩ := ih (i + 1) (c + weight M S x) (map_emplace c i d)
      (map_emplace_sorted c i d hd) (Or.inr (map_emplace_ne_nil c i d))
    refine ⟨h1, h2, ?_⟩
    intro e he
    rcases h3 e he with h | h
    · rcases mem_map_emplace c i d e h with rfl | h
      · right
        simp
      · exact Or.inl h
    · right
      simp only [List.length_cons]
      omega

theorem le_getLast_of_sorted (l : List ℚ) (h : l.Pairwise (fun a b => a < b)) (last : ℚ)
    (hl : l.getLast? = some last) : ∀ a ∈ l, a ≤ last := by
  induction l with
  | nil => simp
  | cons b rest ih =>
    intro a ha
    rw [List.pairwise_cons] at h
    cases rest with
    | nil =>
      simp only [List.getLast?_singleton, Option.some.injEq] at hl
      simp only [List.mem_singleton] at ha
      rw [ha, hl]
    | cons c rest' =>
      have hl' : (c :: rest').getLast? = some last := by
        rw [List.getLast?_cons_cons] at hl
        exact hl
      have hmem : last ∈ c :: rest' := List.mem_of_getLast?_eq_some hl'
      rcases List.mem_cons.mp ha with rfl | ha
      · exact le_of_lt (h.1 last hmem)
      · exact ih h.2 hl' a ha

/-- C12: for every non-empty model set and every draw value `v` (also a `v` above every
boundary, and `v = 1`), the sampling step yields a model that is attached to an entry of
the table and is one of the loaded models (never `none`, never the end position), and when
`v` is greater than the last boundary it yields the model of the last entry. -/
theorem select_player_in_table (all_players : List Player_t) (hne : all_players ≠ [])
    (v : ℚ) :
    (∃ e ∈ generate_distribution all_players,
        select_player (generate_distribution all_players) v = some e.2
          ∧ e.2 < all_players.length)
    ∧ ∀ last, (generate_distribution all_players).getLast? = some last → last.1 < v →
        select_player (generate_distribution all_players) v = some last.2 := by
  have hspec : generate_distribution all_players ≠ []
      ∧ ((generate_distribution all_players).map Prod.fst).Pairwise (fun a b => a < b)
      ∧ ∀ e ∈ generate_distribution all_players,
          e ∈ ([] : Distribution) ∨ (0 ≤ e.2 ∧ e.2 < 0 + all_players.length) :=
    distribution_loop_spec (max_length_of all_players)
      (sump_of (max_length_of all_players) all_players) all_players 0 0 [] (by simp)
      (Or.inl hne)
  obtain ⟨hnil, hsorted, hmem⟩ := hspec
  have hidx : ∀ e ∈ generate_distribution all_players, e.2 < all_players.length := by
    intro e he
    rcases hmem e he with h | h
    · simp at h
    · omega
  constructor
  · unfold select_player
    split
    · rename_i e tail hlb
      have hsub : (lower_bound v (generate_distribution all_players)).Sublist
          (generate_distribution all_players) := List.dropWhile_sublist _
      have he : e ∈ generate_distribution all_players :=
        hsub.subset (by rw [hlb]; exact List.mem_cons_self _ _)
      exact ⟨e, he, rfl, hidx e he⟩
    · refine ⟨(generate_distribution all_players).getLast hnil, List.getLast_mem hnil, ?_,
        hidx _ (List.getLast_mem hnil)⟩
      rw [List.getLast?_eq_getLast _ hnil]
      rfl
  · intro last hlast hlt
    have hall : ∀ e ∈ generate_distribution all_players, e.1 < v := by
      intro e he
      have hl : ((generate_distribution all_players).map Prod.fst).getLast? = some last.1 := by
        rw [List.getLast?_map, hlast]
        rfl
      have := le_getLast_of_sorted _ hsorted last.1 hl e.1 (List.mem_map.mpr ⟨e, he, rfl⟩)
      exact lt_of_le_of_lt this hlt
    have hdrop : lower_bound v (generate_distribution all_players) = [] := by
      unfold lower_bound
      rw [List.dropWhile_eq_nil_iff]
      intro e he
      simpa using hall e he
    unfold select_player
    rw [hdrop, hlast]
    rfl

/-- The three models of `three_models` and the draw 1, for C12. -/
theorem select_player_in_table_witness :
    three_models ≠ []
    ∧ (∃ e ∈ generate_distribution three_models,
        select_player (generate_distribution three_models) 1 = some e.2
          ∧ e.2 < three_models.length)
    ∧ ∀ last, (generate_distribution three_models).getLast? = some last → last.1 < 1 →
        select_player (generate_distribution three_models) 1 = some last.2 :=
  ⟨by decide, select_player_in_table three_models (by decide) 1⟩

/-! ## The command line and the model file -/

theorem scan_args_pair (S : Sys) (p : String × String) (hp : accepted_pair S p)
    (rest : List String) (o : Options) :
    ∃ o1, scan_args S (p.1 :: p.2 :: rest) o = scan_args S rest o1 := by
  obtain ⟨h1, h2⟩ := hp
  have hobs : ¬ ((p.1 = "--obs" ∨ p.1 = "--objects") ∧ (S.strtol p.2).2 = false) := by
    rintro ⟨h | h, hf⟩
    · rw [h2 (Or.inl h)] at hf
      exact absurd hf (by simp)
    · rw [h2 (Or.inr (Or.inl h))] at hf
      exact absurd hf (by simp)
  have hops : ¬ ((p.1 = "--ops" ∨ p.1 = "--operations") ∧ (S.strtol p.2).2 = false) := by
    rintro ⟨h | h, hf⟩
    · rw [h2 (Or.inr (Or.inr (Or.inl h)))] at hf
      exact absurd hf (by simp)
    · rw [h2 (Or.inr (Or.inr (Or.inr h)))] at hf
      exact absurd hf (by simp)
  generalize hr : scan_args S (p.1 :: p.2 :: rest) o = r
  rw [scan_args.eq_def] at hr
  simp only [h1, if_true, hobs, hops, if_false] at hr
  exact ⟨_, hr.symm⟩

theorem scan_args_pairs (S : Sys) (pairs : List (String × String))
    (hp : ∀ p ∈ pairs, accepted_pair S p) (rest : List String) (o : Options) :
    ∃ o1, scan_args S (flatten_pairs pairs ++ rest) o = scan_args S rest o1 := by
  induction pairs generalizing o with
  | nil => exact ⟨o, rfl⟩
  | cons p ps ih =>
    obtain ⟨o1, h1⟩ := scan_args_pair S p (hp p (List.mem_cons_self _ _))
      (flatten_pairs ps ++ rest) o
    obtain ⟨o2, h2⟩ := ih (fun q hq => hp q (List.mem_cons_of_mem _ hq)) o1
    exact ⟨o2, by simpa [flatten_pairs, h1] using h2⟩

theorem scan_args_unknown (S : Sys) (bad : String) (rest : List String) (o : Options)
    (h1 : oneparam_args.contains bad = false) (h2 : bad ≠ "-h") (h3 : bad ≠ "--help") :
    scan_args S (bad :: rest) o = Scan.exit 1 true := by
  rw [scan_args.eq_def]
  simp only [h1, h2, h3, Bool.false_eq_true, if_false, or_self]

/-- C13: if the argument scan of `main` steps over any number of accepted option/value pairs
and then reaches an argument that is neither a recognised one-parameter option nor `-h` or
`--help`, `main` prints the usage text and returns 1 without calling `load_models` or
`generate_iolog`; and if the scan completes with `models` empty, `main` also prints the
usage text and returns 1 without calling either. -/
theorem main_rejects_arguments (S : Sys) (E : Env) (fuel : Nat)
    (pairs : List (String × String)) (bad : String) (rest args : List String) (o : Options)
    (hpairs : ∀ p ∈ pairs, accepted_pair S p)
    (hbad : oneparam_args.contains bad = false) (hh : bad ≠ "-h") (hhelp : bad ≠ "--help")
    (hscan : scan_args S args default_options = Scan.completed o) (hmodels : o.models = "") :
    main S E fuel (flatten_pairs pairs ++ bad :: rest) = MainResult.finished 1 true false none
    ∧ main S E fuel args = MainResult.finished 1 true false none
    ∧ (1 : Int) ≠ 0 := by
  refine ⟨?_, ?_, by decide⟩
  · obtain ⟨o1, h1⟩ := scan_args_pairs S pairs hpairs (bad :: rest) default_options
    unfold main
    rw [h1, scan_args_unknown S bad rest o1 hbad hh hhelp]
  · unfold main
    rw [hscan]
    simp [hmodels]

/-- The arguments `-o out --ops 12 --bogus x` and `-o out`, for C13. -/
theorem main_rejects_arguments_witness :
    (∀ p ∈ [("-o", "out"), ("--ops", "12")], accepted_pair sample_sys p)
    ∧ scan_args sample_sys ["-o", "out"] default_options
        = Scan.completed { default_options with output_name := "out" }
    ∧ main sample_sys two_event_env 5 ["-o", "out", "--ops", "12", "--bogus", "x"]
        = MainResult.finished 1 true false none
    ∧ main sample_sys two_event_env 5 ["-o", "out"] = MainResult.finished 1 true false none
    ∧ (1 : Int) ≠ 0 := by
  have hp : ∀ p ∈ [("-o", "out"), ("--ops", "12")], accepted_pair sample_sys p := by
    intro p hp
    simp only [List.mem_cons, List.mem_singleton, List.not_mem_nil, or_false] at hp
    rcases hp with rfl | rfl
    · exact ⟨by decide, by decide⟩
    · exact ⟨by decide, fun _ => by decide⟩
  have hs : scan_args sample_sys ["-o", "out"] default_options
      = Scan.completed { default_options with output_name := "out" } := by decide
  exact ⟨hp, hs,
    main_rejects_arguments sample_sys two_event_env 5 [("-o", "out"), ("--ops", "12")]
      "--bogus" ["x"] ["-o", "out"] _ hp (by decide) (by decide) (by decide) hs rfl⟩

theorem load_models_loop_eq (S : Sys) (fuel : Nat) (f : List Nat) (result : Bool)
    (all_players : List Player_t) :
    load_models_loop S fuel f result all_players
      = match load_attempts S fuel f with
        | none => Loaded.out_of_fuel
        | some attempts =>
          Loaded.returned (result && attempts.all (fun a => a.1))
            (all_players ++ attempts.map (fun a => a.2)) := by
  induction fuel generalizing f result all_players with
  | zero => simp [load_models_loop, load_attempts]
  | succ fuel ih =>
    cases f with
    | nil => simp [load_models_loop, load_attempts]
    | cons ch rest =>
      simp only [load_models_loop, load_attempts]
      rw [ih]
      cases load_attempts S fuel (S.Player_load (ch :: rest)).2.2 with
      | none => rfl
      | some attempts =>
        cases hl : (S.Player_load (ch :: rest)).1 <;> cases result <;> simp [hl]

theorem load_attempts_total (S : Sys)
    (hcons : ∀ f, f ≠ [] → (S.Player_load f).2.2.length < f.length) (fuel : Nat)
    (f : List Nat) (hfuel : f.length < fuel) :
    ∃ attempts, load_attempts S fuel f = some attempts := by
  induction fuel generalizing f with
  | zero => omega
  | succ fuel ih =>
    cases f with
    | nil => exact ⟨[], rfl⟩
    | cons ch rest =>
      have hlt := hcons (ch :: rest) (by simp)
      obtain ⟨attempts, ha⟩ := ih (S.Player_load (ch :: rest)).2.2
        (by simp only [List.length_cons] at hfuel hlt; omega)
      exact ⟨((S.Player_load (ch :: rest)).1, (S.Player_load (ch :: rest)).2.1) :: attempts,
        by simp [load_attempts, ha]⟩

/-- C14: when the model file opens and every `Player_t::load` consumes at least one byte of
what is left of it, `load_models` (with fuel for more loads than the file has bytes)
returns after the attempts that read the file to its end, one load after the other whether
or not a load fails: it pushes the player of every attempt and returns true iff every
attempt succeeded; and if some attempt failed, it returns false and `main` returns 1 after
`load_models` without calling `generate_iolog`. -/
theorem load_models_reports_failure (S : Sys) (E : Env) (fuel : Nat) (models : String)
    (f : List Nat) (args : List String) (o : Options)
    (hopen : S.fopen models = some f)
    (hconsumes : ∀ g, g ≠ [] → (S.Player_load g).2.2.length < g.length)
    (hfuel : f.length < fuel)
    (hscan : scan_args S args default_options = Scan.completed o)
    (hmodels : o.models = models) (hname : models ≠ "") :
    ∃ attempts, load_attempts S fuel f = some attempts
      ∧ load_models S fuel models []
          = Loaded.returned (attempts.all (fun a => a.1)) (attempts.map (fun a => a.2))
      ∧ ((∃ a ∈ attempts, a.1 = false) →
          load_models S fuel models [] = Loaded.returned false (attempts.map (fun a => a.2))
          ∧ main S E fuel args = MainResult.finished 1 false true none
          ∧ (1 : Int) ≠ 0) := by
  obtain ⟨attempts, hattempts⟩ := load_attempts_total S hconsumes fuel f hfuel
  have hload : load_models S fuel models []
      = Loaded.returned (attempts.all (fun a => a.1)) (attempts.map (fun a => a.2)) := by
    unfold load_models
    rw [hopen]
    simp only []
    rw [load_models_loop_eq, hattempts]
    simp
  refine ⟨attempts, hattempts, hload, ?_⟩
  intro hfail
  have hall : attempts.all (fun a => a.1) = false := by
    obtain ⟨a, ha, hf⟩ := hfail
    rw [List.all_eq_false]
    exact ⟨a, ha, by simp [hf]⟩
  refine ⟨by rw [hload, hall], ?_, by decide⟩
  unfold main
  rw [hscan]
  simp only []
  rw [hmodels, if_neg hname, hload, hall]
  simp

/-- The file of `sample_sys`, whose second record fails to load, for C14. -/
theorem load_models_reports_failure_witness :
    sample_sys.fopen "models" = some [1, 0, 2]
    ∧ (∀ g, g ≠ [] → (sample_sys.Player_load g).2.2.length < g.length)
    ∧ load_attempts sample_sys 5 [1, 0, 2]
        = some [(true, ⟨10, 1⟩), (false, ⟨10, 1⟩), (true, ⟨10, 1⟩)]
    ∧ load_models sample_sys 5 "models" []
        = Loaded.returned false [⟨10, 1⟩, ⟨10, 1⟩, ⟨10, 1⟩]
    ∧ main sample_sys two_event_env 5 ["-m", "models"] = MainResult.finished 1 false true none := by
  have hc : ∀ g, g ≠ [] → (sample_sys.Player_load g).2.2.length < g.length := by
    intro g hg
    cases g with
    | nil => exact absurd rfl hg
    | cons a rest => simp [sample_sys]
  have ha : load_attempts sample_sys 5 [1, 0, 2]
      = some [(true, ⟨10, 1⟩), (false, ⟨10, 1⟩), (true, ⟨10, 1⟩)] := by decide
  have hs : scan_args sample_sys ["-m", "models"] default_options
      = Scan.completed { default_options with models := "models" } := by decide
  obtain ⟨attempts, hatt, _, hfail⟩ := load_models_reports_failure sample_sys two_event_env 5
    "models" [1, 0, 2] ["-m", "models"] _ rfl hc (by decide) hs rfl (by decide)
  rw [ha] at hatt
  simp only [Option.some.injEq] at hatt
  subst hatt
  have h := hfail ⟨(false, ⟨10, 1⟩), by simp, rfl⟩
  exact ⟨rfl, hc, ha, h.1, h.2.1⟩

/-- C15: if the output name is not empty and the file cannot be opened for writing,
`generate_iolog` returns false with an empty output (no header line, no batch), whatever the
fuel: also with no fuel at all, so the loop, the only place where playback instances are
created, is not entered. -/
theorem generate_iolog_cannot_open (E : Env) (fuel : Nat) (output_name pfx : String)
    (operation_count max_object_count : Nat) (hname : output_name ≠ "")
    (hbad : E.foutput_good output_name = false) :
    generate_iolog E fuel output_name pfx operation_count max_object_count
        = Result.returned false []
    ∧ generate_iolog E 0 output_name pfx operation_count max_object_count
        = Result.returned false [] := by
  unfold generate_iolog
  simp [hname, hbad]

/-- The output file `out` with `no_output_env`, for C15. -/
theorem generate_iolog_cannot_open_witness :
    ("out" : String) ≠ "" ∧ no_output_env.foutput_good "out" = false
    ∧ generate_iolog no_output_env 3 "out" "x." 3 10 = Result.returned false []
    ∧ generate_iolog no_output_env 0 "out" "x." 3 10 = Result.returned false [] :=
  ⟨by decide, rfl, generate_iolog_cannot_open no_output_env 3 "out" "x." 3 10 (by decide) rfl⟩

/-! ## Admission time and drain order -/

theorem to_int64_range (t : Nat) : -(2 : Int) ^ 63 ≤ to_int64 t ∧ to_int64 t < 2 ^ 63 := by
  unfold to_int64
  have h : t % 2 ^ 64 < 2 ^ 64 := Nat.mod_lt _ (by norm_num)
  split <;> constructor <;> omega

theorem to_int64_to_uint64 (k : Int) (h1 : -(2 : Int) ^ 63 ≤ k) (h2 : k < 2 ^ 63) :
    to_int64 (to_uint64 k) = k := by
  unfold to_int64 to_uint64
  have hm : (k % 2 ^ 64).toNat % 2 ^ 64 = (k % 2 ^ 64).toNat := by
    apply Nat.mod_eq_of_lt
    omega
  rw [hm]
  split <;> omega

theorem to_uint64_of_nonneg (k : Int) (h1 : 0 ≤ k) (h2 : k < 2 ^ 63) :
    ((to_uint64 k : Nat) : Int) = k := by
  unfold to_uint64
  omega

theorem do_while_out_of_fuel (E : Env) (distribution : Distribution) (max_object_count : Nat)
    (hd : Distribution.valid E distribution) (fuel N : Nat) (s : State) (hs : s.sound)
    (hc : s.candidate_valid E) (h1 : fuel < N) (h2 : N < 2 ^ 64) :
    do_while E distribution max_object_count fuel false N s = Loop.out_of_fuel := by
  induction fuel generalizing N s with
  | zero => rfl
  | succ fuel ih =>
    obtain ⟨s1, hb⟩ := body_progress E distribution max_object_count s hd hs hc
    have hdec : (N + 2 ^ 64 - 1) % 2 ^ 64 = N - 1 := by
      have : N + 2 ^ 64 - 1 = (N - 1) + 2 ^ 64 := by omega
      rw [this, Nat.add_mod_right]
      exact Nat.mod_eq_of_lt (by omega)
    have hpos : N - 1 > 0 := by omega
    simp only [do_while, hb, hdec, Bool.false_eq_true, if_false, hpos, if_true]
    exact ih (N - 1) s1 (body_sound E distribution max_object_count s s1 hs hb)
      (candidate_valid_body E distribution max_object_count s s1 hd hc hb) (by omega) (by omega)

theorem do_while_infinite (E : Env) (distribution : Distribution) (max_object_count : Nat)
    (hd : Distribution.valid E distribution) (fuel operation_count : Nat) (s : State)
    (hs : s.sound) (hc : s.candidate_valid E) :
    do_while E distribution max_object_count fuel true operation_count s
      = Loop.out_of_fuel := by
  induction fuel generalizing s with
  | zero => rfl
  | succ fuel ih =>
    obtain ⟨s1, hb⟩ := body_progress E distribution max_object_count s hd hs hc
    simp only [do_while, hb, if_true]
    exact ih s1 (body_sound E distribution max_object_count s s1 hs hb)
      (candidate_valid_body E distribution max_object_count s s1 hd hc hb)

theorem admitted_body (E : Env) (distribution : Distribution) (max_object_count : Nat)
    (s s3 : State) (h : body E distribution max_object_count s = some s3) :
    (s3.admitted = s.admitted ∧ s3.output.countP Batch.is_opened = s.output.countP Batch.is_opened)
    ∨ (s3.admitted = s.admitted + 1
      ∧ s3.output.countP Batch.is_opened = s.output.countP Batch.is_opened + 1) := by
  obtain ⟨s1, s2, h1, h2, h3⟩ := body_spec E distribution max_object_count s s3 h
  have e1 : s1.admitted = s.admitted ∧ s1.output = s.output := by
    rcases sample_step_spec E distribution s s1 h1 with ⟨_, rfl⟩ | ⟨_, i, _, rfl⟩
    · exact ⟨rfl, rfl⟩
    · exact ⟨rfl, rfl⟩
  have e3 : s3.admitted = s2.admitted
      ∧ s3.output.countP Batch.is_opened = s2.output.countP Batch.is_opened := by
    rcases drain_step_spec E s2 s3 h3 with ⟨_, rfl⟩ | ⟨_, _, _, _, _, _, _, hout, _, _, _, hadm, _⟩
    · exact ⟨rfl, rfl⟩
    · refine ⟨hadm, ?_⟩
      rw [hout, List.countP_append]
      simp [Batch.is_opened]
  obtain ⟨i, x, _, _, ⟨_, rfl⟩ | ⟨_, hs2⟩⟩ := admit_step_spec E max_object_count s1 s2 h2
  · left
    exact ⟨e3.1.trans e1.1, by rw [e3.2, e1.2]⟩
  · right
    constructor
    · rw [e3.1, hs2, e1.1]
    · rw [e3.2, hs2, e1.2]
      simp only [List.countP_append]
      simp [Batch.is_opened]

theorem admitted_iterate (E : Env) (distribution : Distribution) (max_object_count : Nat)
    (pfx : String) (n : Nat) (s : State)
    (h : iterate E distribution max_object_count n (initial_state pfx) = some s) :
    s.admitted ≤ n ∧ s.output.countP Batch.is_opened = s.admitted := by
  induction n generalizing s with
  | zero =>
    simp only [iterate, Option.some.injEq] at h
    subst h
    simp [initial_state, Batch.is_opened]
  | succ n ih =>
    rw [iterate_succ_last] at h
    cases hn : iterate E distribution max_object_count n (initial_state pfx) with
    | none => simp [hn] at h
    | some sn =>
      simp only [hn, Option.some_bind] at h
      obtain ⟨ihle, iheq⟩ := ih sn hn
      rcases admitted_body E distribution max_object_count sn s h with ⟨ha, hc⟩ | ⟨ha, hc⟩
      · exact ⟨by omega, by rw [hc, ha, iheq]⟩
      · exact ⟨by omega, by rw [hc, ha, iheq]⟩

/-- C18: for a non-empty model set with positive lengths and `operation_count = N` with
`1 ≤ N < 2 ^ 64`, the loop of `generate_iolog` exits after exactly `N` executions of its
body: with fuel for `N` iterations it exits in the state after `N` bodies, with less it has
not exited; that state counts at most `N` admissions (as many as open batches) and at most
`N` drain batches, every body making at most one admission and one drain; and for
`operation_count = 0` the loop does not exit, whatever the fuel, so `generate_iolog` does
not return. -/
theorem loop_runs_operation_count_times (E : Env) (hne : E.all_players ≠ [])
    (hpos : ∀ x ∈ E.all_players, 0 < x.length) (fuel N : Nat) (pfx : String)
    (max_object_count : Nat) (h1 : 1 ≤ N) (h2 : N < 2 ^ 64) :
    (∃ s, iterate E (generate_distribution E.all_players) max_object_count N
          (initial_state pfx) = some s
        ∧ (N ≤ fuel →
            do_while E (generate_distribution E.all_players) max_object_count fuel false N
              (initial_state pfx) = Loop.exited s)
        ∧ s.admitted ≤ N
        ∧ s.output.countP Batch.is_opened = s.admitted
        ∧ (drained_keys s.output).length ≤ N)
    ∧ (fuel < N →
        do_while E (generate_distribution E.all_players) max_object_count fuel false N
          (initial_state pfx) = Loop.out_of_fuel)
    ∧ (∀ a b, body E (generate_distribution E.all_players) max_object_count a = some b →
        b.admitted ≤ a.admitted + 1
        ∧ (drained_keys b.output).length ≤ (drained_keys a.output).length + 1)
    ∧ do_while E (generate_distribution E.all_players) max_object_count fuel true 0
        (initial_state pfx) = Loop.out_of_fuel
    ∧ generate_iolog E fuel "" pfx 0 max_object_count = Result.out_of_fuel := by
  have hd := generate_distribution_valid E hne hpos
  obtain ⟨s, hs, _, _⟩ := iterate_progress E _ max_object_count hd N (initial_state pfx)
    (sound_initial pfx) (candidate_valid_initial E pfx)
  have hinf := do_while_infinite E _ max_object_count hd fuel 0 (initial_state pfx)
    (sound_initial pfx) (candidate_valid_initial E pfx)
  refine ⟨⟨s, hs, ?_, (admitted_iterate E _ max_object_count pfx N s hs).1,
    (admitted_iterate E _ max_object_count pfx N s hs).2,
    (drained_keys_length_iterate E _ max_object_count pfx N s hs).1⟩, ?_, ?_, hinf, ?_⟩
  · intro hfuel
    exact do_while_of_iterate E _ max_object_count fuel N _ s h1 hfuel h2 hs
  · intro hfuel
    exact do_while_out_of_fuel E _ max_object_count hd fuel N (initial_state pfx)
      (sound_initial pfx) (candidate_valid_initial E pfx) hfuel h2
  · intro a b hb
    constructor
    · rcases admitted_body E _ max_object_count a b hb with ⟨ha, _⟩ | ⟨ha, _⟩ <;> omega
    · obtain ⟨s1, s2, e1, e2, e3⟩ := body_spec E _ max_object_count a b hb
      obtain ⟨_, hnil, hcons⟩ := drained_keys_body E _ max_object_count a s1 s2 b e1 e2 e3
      by_cases hact : s2.active_players = []
      · rw [hnil hact]
        omega
      · obtain ⟨k, hk⟩ := hcons hact
        rw [hk, List.length_append]
        simp
  · unfold generate_iolog
    simp only [ne_eq, not_true_eq_false, false_and, if_false, beq_self_eq_true]
    rw [hinf]

/-- The model of `two_event_env` with `operation_count = 3`, for C18. -/
theorem loop_runs_operation_count_times_witness :
    two_event_env.all_players ≠ [] ∧ (∀ x ∈ two_event_env.all_players, 0 < x.length)
    ∧ do_while two_event_env (generate_distribution two_event_env.all_players) 10 2 false 3
        (initial_state "x.") = Loop.out_of_fuel
    ∧ (∃ s, iterate two_event_env (generate_distribution two_event_env.all_players) 10 3
          (initial_state "x.") = some s
        ∧ do_while two_event_env (generate_distribution two_event_env.all_players) 10 3 false 3
            (initial_state "x.") = Loop.exited s
        ∧ s.admitted ≤ 3 ∧ (drained_keys s.output).length ≤ 3)
    ∧ generate_iolog two_event_env 3 "" "x." 0 10 = Result.out_of_fuel := by
  have h2 := loop_runs_operation_count_times two_event_env (by decide) (by decide) 2 3 "x." 10
    (by decide) (by norm_num)
  have h3 := loop_runs_operation_count_times two_event_env (by decide) (by decide) 3 3 "x." 10
    (by decide) (by norm_num)
  obtain ⟨⟨s, hs, hex, hadm, _, hdr⟩, _, _, _, hgen⟩ := h3
  exact ⟨by decide, by decide, h2.2.1 (by decide), ⟨s, hs, hex (le_refl _), hadm, hdr⟩, hgen⟩

/-! ## Instances in the active set and in the output -/

theorem opens_precede_drains_append (output : List Batch) (x : Batch)
    (h : opens_precede_drains output)
    (hx : ∀ id key, x = Batch.commands id key → Batch.opened id ∈ output) :
    opens_precede_drains (output ++ [x]) := by
  intro pre post id key heq
  rcases List.eq_nil_or_concat post with rfl | ⟨post1, y, rfl⟩
  · have heq' : output ++ [x] = pre ++ [Batch.commands id key] := heq
    obtain ⟨h1, h2⟩ := List.append_inj' heq' rfl
    simp only [List.cons.injEq, and_true] at h2
    rw [← h1]
    exact hx id key h2
  · have heq' : output ++ [x] = (pre ++ Batch.commands id key :: post1) ++ [y] := by
      rw [heq]
      simp
    obtain ⟨h1, _⟩ := List.append_inj' heq' rfl
    exact h pre post1 id key h1

theorem opened_body (E : Env) (distribution : Distribution) (max_object_count : Nat)
    (s s3 : State) (hs : s.sound) (h : body E distribution max_object_count s = some s3)
    (hp : opens_precede_drains s.output)
    (ho : ∀ id, s.output.count (Batch.opened id) = if id < s.admitted then 1 else 0) :
    opens_precede_drains s3.output
    ∧ ∀ id, s3.output.count (Batch.opened id) = if id < s3.admitted then 1 else 0 := by
  obtain ⟨s1, s2, h1, h2, h3⟩ := body_spec E distribution max_object_count s s3 h
  have hs1 := sample_step_sound E distribution s s1 hs h1
  have hs2 := admit_step_sound E max_object_count s1 s2 hs1 h2
  have e1 : s1.admitted = s.admitted ∧ s1.output = s.output := by
    rcases sample_step_spec E distribution s s1 h1 with ⟨_, rfl⟩ | ⟨_, i, _, rfl⟩
    · exact ⟨rfl, rfl⟩
    · exact ⟨rfl, rfl⟩
  have e2 : opens_precede_drains s2.output
      ∧ ∀ id, s2.output.count (Batch.opened id) = if id < s2.admitted then 1 else 0 := by
    obtain ⟨i, x, _, _, ⟨_, rfl⟩ | ⟨_, hs2'⟩⟩ := admit_step_spec E max_object_count s1 s2 h2
    · rw [e1.1, e1.2]
      exact ⟨hp, ho⟩
    · rw [hs2']
      simp only [e1.1, e1.2]
      constructor
      · exact opens_precede_drains_append _ _ hp (fun id key hx => by simp at hx)
      · intro id
        rw [List.count_append, ho id]
        by_cases hid : id = s.admitted
        · subst hid
          simp
        · have hne : ¬ (Batch.opened s.admitted = Batch.opened id) := by
            intro h'
            simp only [Batch.opened.injEq] at h'
            exact hid h'.symm
          simp only [List.count_cons, List.count_nil, beq_iff_eq, hne, if_false]
          by_cases hlt : id < s.admitted
          · have : id < s.admitted + 1 := by omega
            simp [hlt, this]
          · have : ¬ id < s.admitted + 1 := by omega
            simp [hlt, this]
  rcases drain_step_active E s2 s3 hs2 h3 with ⟨_, rfl⟩ |
    ⟨k, pb, t, later, rest, hact, _, _, hout, hadm, _⟩
  · exact e2
  · have hid : pb.id < s2.admitted :=
      hs2.2.2.2.1 (k, pb) (by rw [hact]; exact List.mem_cons_self _ _)
    have hopen : Batch.opened pb.id ∈ s2.output := by
      have := e2.2 pb.id
      rw [if_pos hid] at this
      exact List.count_pos_iff.mp (by omega)
    rw [hout, hadm]
    constructor
    · refine opens_precede_drains_append _ _ e2.1 ?_
      intro id key hx
      simp only [Batch.commands.injEq] at hx
      rw [← hx.1]
      exact hopen
    · intro id
      rw [List.count_append, e2.2 id]
      simp

theorem length_le_of_nodup_lt (l : List Nat) (m : Nat) (h : l.Nodup) (hlt : ∀ a ∈ l, a < m) :
    l.length ≤ m := by
  have hsub : l ⊆ List.range m := fun a ha => List.mem_range.mpr (hlt a ha)
  have := (List.subperm_of_subset h hsub).length_le
  simpa using this

/-- C19: in every state that the loop reaches, the entries of the active set are distinct
admitted instances, so the size of the active set does not exceed the number of admissions
so far; in the output every admitted instance has exactly one open batch, which comes
before each of its drain batches; and at shutdown no instance is closed more than once. -/
theorem active_instances_distinct (E : Env) (max_object_count : Nat) (pfx : String)
    (n : Nat) (s : State)
    (hrun : iterate E (generate_distribution E.all_players) max_object_count n
      (initial_state pfx) = some s) :
    (s.active_players.map (fun e => e.2.id)).Nodup
    ∧ (∀ e ∈ s.active_players, e.2.id < s.admitted)
    ∧ s.active_players.length ≤ s.admitted
    ∧ opens_precede_drains s.output
    ∧ (∀ id, s.output.count (Batch.opened id) = if id < s.admitted then 1 else 0)
    ∧ ∀ id, (s.output ++ close_on_finish s.active_players).count (Batch.closed id) ≤ 1 := by
  have hs := iterate_sound E _ max_object_count n _ s (sound_initial pfx) hrun
  obtain ⟨_, _, hnodup, hadm, hclosed⟩ := hs
  have hout : opens_precede_drains s.output
      ∧ ∀ id, s.output.count (Batch.opened id) = if id < s.admitted then 1 else 0 := by
    refine iterate_invariant E _ max_object_count
      (fun a => a.sound ∧ opens_precede_drains a.output
        ∧ ∀ id, a.output.count (Batch.opened id) = if id < a.admitted then 1 else 0)
      ?_ n _ s ⟨sound_initial pfx, ?_, ?_⟩ hrun |>.2
    · intro a b ⟨ha, hp, ho⟩ hb
      exact ⟨body_sound E _ max_object_count a b ha hb,
        opened_body E _ max_object_count a b ha hb hp ho⟩
    · intro pre post id key heq
      simp only [initial_state] at heq
      cases pre with
      | nil => simp at heq
      | cons b pre' =>
        simp only [List.cons_append, List.cons.injEq] at heq
        have := heq.2
        cases pre' <;> simp at this
    · intro id
      simp [initial_state]
  refine ⟨hnodup, hadm, ?_, hout.1, hout.2, ?_⟩
  · have := length_le_of_nodup_lt _ s.admitted hnodup (by
      intro a ha
      obtain ⟨e, he, rfl⟩ := List.mem_map.mp ha
      exact hadm e he)
    simpa using this
  · intro id
    have h0 : s.output.count (Batch.closed id) = 0 :=
      List.count_eq_zero_of_not_mem (fun hmem => hclosed _ hmem id rfl)
    rw [List.count_append, h0, count_closed_close_on_finish, zero_add]
    exact List.nodup_iff_count_le_one.mp hnodup id

/-- The state after three iterations with `two_event_env`, for C19. -/
theorem active_instances_distinct_witness :
    ∃ s, iterate two_event_env (generate_distribution two_event_env.all_players) 10 3
        (initial_state "x.") = some s
      ∧ s.active_players.map (fun e => e.2.id) = [2, 1]
      ∧ (s.active_players.map (fun e => e.2.id)).Nodup
      ∧ s.active_players.length ≤ s.admitted
      ∧ opens_precede_drains s.output
      ∧ ∀ id, (s.output ++ close_on_finish s.active_players).count (Batch.closed id) ≤ 1 := by
  have hids : (iterate two_event_env (generate_distribution two_event_env.all_players) 10 3
      (initial_state "x.")).map (fun s => s.active_players.map (fun e => e.2.id))
      = some [2, 1] := by decide!
  obtain ⟨s, hs, hk⟩ := Option.map_eq_some'.mp hids
  have h := active_instances_distinct two_event_env 10 "x." 3 s hs
  exact ⟨s, hs, hk, h.1, h.2.2.1, h.2.2.2.1, h.2.2.2.2.2⟩

/-! ## Consecutive drain steps -/

theorem admission_time_head (s : State) (hs : s.sound) (ho : s.in_order) :
    admission_time s.active_players < 2 ^ 63
    ∧ ∀ first rest, s.active_players = first :: rest →
        ((admission_time s.active_players : Nat) : Int) = first.1 := by
  cases hact : s.active_players with
  | nil =>
    refine ⟨by simp [admission_time], ?_⟩
    intro first rest h
    simp at h
  | cons a l =>
    obtain ⟨t, later, hev, hk⟩ := hs.1 a (by rw [hact]; exact List.mem_cons_self _ _)
    have hlt : t < 2 ^ 63 :=
      (ho a (by rw [hact]; exact List.mem_cons_self _ _)).2 t (by rw [hev]; simp)
    rw [to_int64_of_lt t hlt] at hk
    have hadm : admission_time (a :: l) = t := by
      simp only [admission_time, hk]
      exact to_uint64_of_lt t hlt
    refine ⟨by rw [hadm]; exact hlt, ?_⟩
    intro first rest h
    simp only [List.cons.injEq] at h
    rw [hadm, ← h.1, hk]

theorem in_order_admit_step (E : Env) (max_object_count : Nat) (s s2 : State)
    (hw : well_timed E) (hs : s.sound) (ho : s.in_order)
    (h : admit_step E max_object_count s = some s2) :
    s2.in_order
    ∧ (s.active_players ≠ [] → s2.active_players ≠ [])
    ∧ ∀ t : Int, s.active_players ≠ [] → (∀ e ∈ s.active_players, t ≤ e.1) →
        ∀ e ∈ s2.active_players, t ≤ e.1 := by
  obtain ⟨i, x, _, _, ⟨_, rfl⟩ | ⟨_, rfl⟩⟩ := admit_step_spec E max_object_count s s2 h
  · exact ⟨ho, fun h => h, fun t _ ht => ht⟩
  · obtain ⟨hlt, hhead⟩ := admission_time_head s hs ho
    obtain ⟨hchain, hrange⟩ := hw i s.object_pool (admission_time s.active_players) hlt
    rw [List.chain_cons] at hchain
    have hfirst := hrange _ (List.mem_cons_self _ _)
    refine ⟨?_, ?_, ?_⟩
    · intro e he
      rcases (mem_mm_emplace _ _ _ e).mp he with rfl | he
      · exact ⟨hchain.2, hrange⟩
      · exact ho e he
    · intro _ hnil
      have := mm_emplace_length
        (to_int64 (E.Playback_new i s.object_pool (admission_time s.active_players)).1.1)
        { id := s.admitted, player := i,
          events := (E.Playback_new i s.object_pool (admission_time s.active_players)).1.1 ::
            (E.Playback_new i s.object_pool (admission_time s.active_players)).1.2 }
        s.active_players
      simp only at hnil
      rw [hnil] at this
      simp at this
    · intro t hne ht e he
      rcases (mem_mm_emplace _ _ _ e).mp he with rfl | he
      · simp only
        rw [to_int64_of_lt _ hfirst]
        obtain ⟨a, l, hact⟩ := List.exists_cons_of_ne_nil hne
        have h1 := hhead a l hact
        have h2 := ht a (by rw [hact]; exact List.mem_cons_self _ _)
        have h3 : ((admission_time s.active_players : Nat) : Int)
            ≤ (((E.Playback_new i s.object_pool (admission_time s.active_players)).1.1 : Nat)
              : Int) := by exact_mod_cast hchain.1
        omega
      · exact ht e he

theorem in_order_drain_step (E : Env) (s s3 : State) (hs : s.sound) (ho : s.in_order)
    (h : drain_step E s = some s3) :
    s3.in_order
    ∧ ∀ first rest, s.active_players = first :: rest →
        drained_keys s3.output = drained_keys s.output ++ [first.1]
        ∧ ∀ e ∈ s3.active_players, first.1 ≤ e.1 := by
  rcases drain_step_active E s s3 hs h with ⟨hnil, rfl⟩ |
    ⟨k, pb, t, later, rest, hact, hev, hk, hout, _, hcase⟩
  · refine ⟨ho, ?_⟩
    intro first rest hact
    rw [hact] at hnil
    exact absurd hnil (by simp)
  · have hsorted := hs.2.1
    rw [hact] at hsorted
    rw [List.pairwise_cons] at hsorted
    have ho' := ho
    unfold State.in_order at ho'
    rw [hact] at ho'
    obtain ⟨hch, hrange⟩ := ho' (k, pb) (List.mem_cons_self _ _)
    simp only [hev] at hch hrange
    have htlt : t < 2 ^ 63 := hrange t (List.mem_cons_self _ _)
    rw [to_int64_of_lt t htlt] at hk
    have hdr : drained_keys s3.output = drained_keys s.output ++ [k] := by
      rw [hout, drained_keys_append]
      simp [drained_keys]
    rcases hcase with ⟨_, ha⟩ | ⟨u, later1, hl, ha⟩
    · constructor
      · intro e he
        rw [ha] at he
        exact ho' e (List.mem_cons_of_mem _ he)
      · intro first rest' hact'
        rw [hact] at hact'
        simp only [List.cons.injEq] at hact'
        rw [← hact'.1]
        refine ⟨hdr, ?_⟩
        intro e he
        rw [ha] at he
        exact hsorted.1 e he
    · rw [hl] at hch hrange
      have hult : u < 2 ^ 63 := hrange u (by simp)
      have htu : t ≤ u := by
        rw [List.chain'_cons] at hch
        exact hch.1
      constructor
      · intro e he
        rw [ha] at he
        rcases (mem_mm_emplace _ _ _ e).mp he with rfl | he
        · refine ⟨?_, ?_⟩
          · rw [List.chain'_cons] at hch
            simp only [hl]
            exact hch.2
          · intro y hy
            simp only [hl] at hy
            exact hrange y (List.mem_cons_of_mem _ hy)
        · exact ho' e (List.mem_cons_of_mem _ he)
      · intro first rest' hact'
        rw [hact] at hact'
        simp only [List.cons.injEq] at hact'
        rw [← hact'.1]
        refine ⟨hdr, ?_⟩
        intro e he
        rw [ha] at he
        rcases (mem_mm_emplace _ _ _ e).mp he with rfl | he
        · simp only
          rw [to_int64_of_lt u hult]
          have htu' : (t : Int) ≤ (u : Int) := by exact_mod_cast htu
          omega
        · exact hsorted.1 e he

theorem in_order_body (E : Env) (distribution : Distribution) (max_object_count : Nat)
    (s s3 : State) (hw : well_timed E) (hs : s.sound) (ho : s.in_order)
    (h : body E distribution max_object_count s = some s3) : s3.in_order := by
  obtain ⟨s1, s2, h1, h2, h3⟩ := body_spec E distribution max_object_count s s3 h
  have hs1 := sample_step_sound E distribution s s1 hs h1
  have ho1 : s1.in_order := by
    rcases sample_step_spec E distribution s s1 h1 with ⟨_, rfl⟩ | ⟨_, i, _, rfl⟩
    · exact ho
    · exact ho
  exact (in_order_drain_step E s2 s3 (admit_step_sound E max_object_count s1 s2 hs1 h2)
    (in_order_admit_step E max_object_count s1 s2 hw hs1 ho1 h2).1 h3).1

/-- C20 (as stated) fails: with `late_event_env` every instance reports non-decreasing event
times that are not earlier than its admission time (5, then `2 ^ 63`); the first drain step
removes key 5 and leaves the active set non-empty, but the reinserted key is the `int64_t`
value `-2 ^ 63`, and the drain step of the next iteration removes that smaller key. -/
theorem next_drain_counterexample :
    times_monotone late_event_env
    ∧ (iterate late_event_env (generate_distribution late_event_env.all_players) 10 1
        (initial_state "x.")).map
          (fun s => (drained_keys s.output, s.active_players.map (fun e => e.1)))
        = some ([5], [-9223372036854775808])
    ∧ (iterate late_event_env (generate_distribution late_event_env.all_players) 10 2
        (initial_state "x.")).map (fun s => drained_keys s.output)
        = some [5, -9223372036854775808]
    ∧ ¬ ((5 : Int) ≤ -9223372036854775808) := by
  refine ⟨?_, by decide!, by decide!, by decide⟩
  intro i pool t
  simp only [late_event_env, List.chain_cons, List.Chain.nil, and_true]
  constructor <;> omega

/-- C20 (amended): if every playback instance admitted at a time below 2^63 reports event
times that are non-decreasing, never earlier than its admission time and below 2^63, then
whenever the drain step of an iteration removes key `t` and leaves the active set
non-empty, every key in the active set is at least `t`, and the next iteration has a drain
step, which removes a key that is at least `t`. -/
theorem next_drain_not_earlier (E : Env) (hne : E.all_players ≠ [])
    (hpos : ∀ x ∈ E.all_players, 0 < x.length) (hw : well_timed E)
    (max_object_count : Nat) (pfx : String) (n : Nat) (s sa : State) (t : Int)
    (hrun : iterate E (generate_distribution E.all_players) max_object_count n
      (initial_state pfx) = some s)
    (hbody : body E (generate_distribution E.all_players) max_object_count s = some sa)
    (hdrain : drained_keys sa.output = drained_keys s.output ++ [t])
    (hact : sa.active_players ≠ []) :
    (∀ e ∈ sa.active_players, t ≤ e.1)
    ∧ ∃ sb t1, body E (generate_distribution E.all_players) max_object_count sa = some sb
        ∧ drained_keys sb.output = drained_keys sa.output ++ [t1] ∧ t ≤ t1 := by
  have hd := generate_distribution_valid E hne hpos
  have hs := iterate_sound E _ max_object_count n _ s (sound_initial pfx) hrun
  have ho : s.in_order := by
    refine iterate_invariant E _ max_object_count (fun a => a.sound ∧ a.in_order) ?_ n _ s
      ⟨sound_initial pfx, ?_⟩ hrun |>.2
    · intro a b ⟨ha, hoa⟩ hb
      exact ⟨body_sound E _ max_object_count a b ha hb,
        in_order_body E _ max_object_count a b hw ha hoa hb⟩
    · intro e he
      simp [initial_state] at he
  have hc : s.candidate_valid E := by
    refine iterate_invariant E _ max_object_count (fun a => a.candidate_valid E) ?_ n _ s
      (candidate_valid_initial E pfx) hrun
    intro a b ha hb
    exact candidate_valid_body E _ max_object_count a b hd ha hb
  have hsa := body_sound E _ max_object_count s sa hs hbody
  have hoa := in_order_body E _ max_object_count s sa hw hs ho hbody
  have hca := candidate_valid_body E _ max_object_count s sa hd hc hbody
  -- the iteration that drains `t`
  have hkeys : ∀ e ∈ sa.active_players, t ≤ e.1 := by
    obtain ⟨s1, s2, h1, h2, h3⟩ := body_spec E _ max_object_count s sa hbody
    have hs1 := sample_step_sound E _ s s1 hs h1
    have ho1 : s1.in_order := by
      rcases sample_step_spec E _ s s1 h1 with ⟨_, rfl⟩ | ⟨_, i, _, rfl⟩
      · exact ho
      · exact ho
    have hs2 := admit_step_sound E max_object_count s1 s2 hs1 h2
    have ho2 := (in_order_admit_step E max_object_count s1 s2 hw hs1 ho1 h2).1
    obtain ⟨e2, hnil, _⟩ := drained_keys_body E _ max_object_count s s1 s2 sa h1 h2 h3
    cases hact2 : s2.active_players with
    | nil =>
      have := hnil hact2
      rw [this] at hdrain
      have := congrArg List.length hdrain
      simp at this
    | cons first rest =>
      obtain ⟨hdr, hge⟩ := (in_order_drain_step E s2 sa hs2 ho2 h3).2 first rest hact2
      rw [hdr, e2] at hdrain
      have : first.1 = t := by simpa using hdrain
      rw [← this]
      exact hge
  refine ⟨hkeys, ?_⟩
  -- the next iteration
  obtain ⟨sb, hb⟩ := body_progress E _ max_object_count sa hd hsa hca
  obtain ⟨s1, s2, h1, h2, h3⟩ := body_spec E _ max_object_count sa sb hb
  have hs1 := sample_step_sound E _ sa s1 hsa h1
  have e1 : s1.in_order ∧ s1.active_players = sa.active_players := by
    rcases sample_step_spec E _ sa s1 h1 with ⟨_, rfl⟩ | ⟨_, i, _, rfl⟩
    · exact ⟨hoa, rfl⟩
    · exact ⟨hoa, rfl⟩
  have hs2 := admit_step_sound E max_object_count s1 s2 hs1 h2
  obtain ⟨ho2, hne2, hge2⟩ := in_order_admit_step E max_object_count s1 s2 hw hs1 e1.1 h2
  have hact1 : s1.active_players ≠ [] := by
    rw [e1.2]
    exact hact
  have hkeys2 := hge2 t hact1 (by rw [e1.2]; exact hkeys)
  obtain ⟨e2, _, _⟩ := drained_keys_body E _ max_object_count sa s1 s2 sb h1 h2 h3
  cases hact2 : s2.active_players with
  | nil => exact absurd hact2 (hne2 hact1)
  | cons first rest =>
    obtain ⟨hdr, _⟩ := (in_order_drain_step E s2 sb hs2 ho2 h3).2 first rest hact2
    refine ⟨sb, first.1, hb, ?_, ?_⟩
    · rw [hdr, e2]
    · exact hkeys2 first (by rw [hact2]; exact List.mem_cons_self _ _)

/-- The first two iterations with `two_event_env`: the first drains key 10 and keeps the
drained instance in the active set, the second drains key 20, for C20. -/
theorem next_drain_not_earlier_witness :
    two_event_env.all_players ≠ [] ∧ (∀ x ∈ two_event_env.all_players, 0 < x.length)
    ∧ well_timed two_event_env
    ∧ ∃ sa, body two_event_env (generate_distribution two_event_env.all_players) 10
          (initial_state "x.") = some sa
        ∧ drained_keys sa.output = drained_keys (initial_state "x.").output ++ [10]
        ∧ sa.active_players ≠ []
        ∧ (∀ e ∈ sa.active_players, (10 : Int) ≤ e.1)
        ∧ ∃ sb t1, body two_event_env (generate_distribution two_event_env.all_players) 10 sa
              = some sb
            ∧ drained_keys sb.output = drained_keys sa.output ++ [t1] ∧ (10 : Int) ≤ t1 := by
  have hw : well_timed two_event_env := by
    intro i pool t ht
    simp only [two_event_env, List.chain_cons, List.Chain.nil, and_true, List.mem_cons,
      List.mem_singleton, List.not_mem_nil, or_false]
    refine ⟨⟨by omega, by omega⟩, ?_⟩
    intro x hx
    rcases hx with rfl | rfl <;> omega
  have hbody : body two_event_env (generate_distribution two_event_env.all_players) 10
      (initial_state "x.")
      = some
        { output := [Batch.header, Batch.opened 0, Batch.commands 0 10]
          object_pool := ⟨"x.", ["object"]⟩
          next_player := none
          next_time := 20
          rand_calls := 1
          admitted := 1
          active_players := [(20, ⟨0, 0, [20]⟩)] } := by decide!
  have h := next_drain_not_earlier two_event_env (by decide) (by decide) hw 10 "x." 0
    (initial_state "x.") _ 10 rfl hbody (by decide) (by decide)
  exact ⟨by decide, by decide, hw, _, hbody, by decide, by decide, h⟩

/-! ## Close batches and the state in which the loop is left -/

theorem exit_of_generate_iolog (E : Env) (fuel : Nat) (output_name pfx : String)
    (operation_count max_object_count : Nat) (out : List Batch)
    (h : generate_iolog E fuel output_name pfx operation_count max_object_count
      = Result.returned true out) :
    ∃ s, do_while E (generate_distribution E.all_players) max_object_count fuel
          (operation_count == 0) operation_count (initial_state pfx) = Loop.exited s
      ∧ out = s.output ++ close_on_finish s.active_players := by
  unfold generate_iolog at h
  split at h
  · simp at h
  · simp only at h
    split at h
    · simp at h
    · simp at h
    · rename_i s hloop
      simp only [Result.returned.injEq, true_and] at h
      exact ⟨s, hloop, h.symm⟩

theorem opened_iterate (E : Env) (distribution : Distribution) (max_object_count : Nat)
    (pfx : String) (n : Nat) (s : State)
    (hrun : iterate E distribution max_object_count n (initial_state pfx) = some s) :
    ∀ id, s.output.count (Batch.opened id) = if id < s.admitted then 1 else 0 := by
  refine (iterate_invariant E distribution max_object_count
    (fun a => a.sound ∧ opens_precede_drains a.output
      ∧ ∀ id, a.output.count (Batch.opened id) = if id < a.admitted then 1 else 0)
    ?_ n _ s ⟨sound_initial pfx, ?_, ?_⟩ hrun).2.2
  · intro a b ⟨ha, hp, ho⟩ hb
    exact ⟨body_sound E _ max_object_count a b ha hb,
      opened_body E _ max_object_count a b ha hb hp ho⟩
  · intro pre post id key heq
    simp only [initial_state] at heq
    cases pre with
    | nil => simp at heq
    | cons b pre1 =>
      simp only [List.cons_append, List.cons.injEq] at heq
      have := heq.2
      cases pre1 <;> simp at this
  · intro id
    simp [initial_state]

/-- C6 (amended): in every run of `generate_iolog` that returns after the loop, with `s` the
state in which the loop is left and `out` the whole output (what the loop wrote followed by
the close batches of the shutdown), the admitted instances are those with an open batch in
`out`; close is called exactly once on every instance that is in the active set of `s`, and
not at all on any other instance: an admitted instance that ran out of events during the
run has been dropped from the active set and gets no close. -/
theorem closed_once_iff_active (E : Env) (fuel : Nat) (output_name pfx : String)
    (operation_count max_object_count : Nat) (out : List Batch)
    (h : generate_iolog E fuel output_name pfx operation_count max_object_count
      = Result.returned true out) :
    ∃ s, do_while E (generate_distribution E.all_players) max_object_count fuel
          (operation_count == 0) operation_count (initial_state pfx) = Loop.exited s
      ∧ out = s.output ++ close_on_finish s.active_players
      ∧ (∀ id, Batch.opened id ∈ out ↔ id < s.admitted)
      ∧ (∀ e ∈ s.active_players, e.2.id < s.admitted)
      ∧ ∀ id, out.count (Batch.closed id)
          = if id ∈ s.active_players.map (fun e => e.2.id) then 1 else 0 := by
  obtain ⟨s, hexit, hout⟩ := exit_of_generate_iolog E fuel output_name pfx operation_count
    max_object_count out h
  obtain ⟨_, n, _, hs⟩ := iterate_of_do_while E _ max_object_count fuel _ _ _ s hexit
  obtain ⟨_, _, hnodup, hadm, hclosed⟩ :=
    iterate_sound E _ max_object_count n _ s (sound_initial pfx) hs
  have hopened := opened_iterate E _ max_object_count pfx n s hs
  refine ⟨s, hexit, hout, ?_, hadm, ?_⟩
  · intro id
    have hnot : Batch.opened id ∉ close_on_finish s.active_players := by
      intro hmem
      simp only [close_on_finish, List.mem_map] at hmem
      obtain ⟨e, _, he⟩ := hmem
      exact absurd he (by simp)
    have hc := hopened id
    rw [hout, List.mem_append]
    constructor
    · intro hmem
      rcases hmem with hmem | hmem
      · by_contra hlt
        rw [if_neg hlt] at hc
        exact absurd hmem (List.count_eq_zero.mp hc)
      · exact absurd hmem hnot
    · intro hlt
      rw [if_pos hlt] at hc
      exact Or.inl (List.count_pos_iff.mp (by omega))
  · intro id
    have h0 : s.output.count (Batch.closed id) = 0 :=
      List.count_eq_zero_of_not_mem (fun hmem => hclosed _ hmem id rfl)
    rw [hout, List.count_append, h0, count_closed_close_on_finish, zero_add]
    exact List.count_eq_of_nodup hnodup

/-- The run of three iterations with `two_event_env`: instance 0 runs out of events and is
not closed, instances 2 and 1 are left in the active set and closed once each, for C6. -/
theorem closed_once_iff_active_witness :
    generate_iolog two_event_env 3 "" "x." 3 10
        = Result.returned true [Batch.header, Batch.opened 0, Batch.commands 0 10,
            Batch.opened 1, Batch.commands 0 20, Batch.opened 2, Batch.commands 1 20,
            Batch.closed 2, Batch.closed 1]
    ∧ ∃ s, do_while two_event_env (generate_distribution two_event_env.all_players) 10 3
          ((3 : Nat) == 0) 3 (initial_state "x.") = Loop.exited s
      ∧ [Batch.header, Batch.opened 0, Batch.commands 0 10,
            Batch.opened 1, Batch.commands 0 20, Batch.opened 2, Batch.commands 1 20,
            Batch.closed 2, Batch.closed 1] = s.output ++ close_on_finish s.active_players
      ∧ (∀ id, Batch.opened id ∈ [Batch.header, Batch.opened 0, Batch.commands 0 10,
            Batch.opened 1, Batch.commands 0 20, Batch.opened 2, Batch.commands 1 20,
            Batch.closed 2, Batch.closed 1] ↔ id < s.admitted)
      ∧ (∀ e ∈ s.active_players, e.2.id < s.admitted)
      ∧ ∀ id, [Batch.header, Batch.opened 0, Batch.commands 0 10,
            Batch.opened 1, Batch.commands 0 20, Batch.opened 2, Batch.commands 1 20,
            Batch.closed 2, Batch.closed 1].count (Batch.closed id)
          = if id ∈ s.active_players.map (fun e => e.2.id) then 1 else 0 :=
  ⟨by decide!, closed_once_iff_active two_event_env 3 "" "x." 3 10 _ (by decide!)⟩

/-! ## The admission time as a number -/

/-- C16 (as stated) fails: with `late_event_env` the first iteration leaves instance 0 in the
active set under the key `-2 ^ 63` (its event time `2 ^ 63` as `int64_t`); the second
iteration admits instance 1 and passes it the admission time `2 ^ 63` (its events start
there), which is not the smallest key `-2 ^ 63`. -/
theorem admission_time_counterexample :
    times_monotone late_event_env
    ∧ (iterate late_event_env (generate_distribution late_event_env.all_players) 10 1
        (initial_state "x.")).map (fun s => s.active_players.map (fun e => e.1))
        = some [-9223372036854775808]
    ∧ ((iterate late_event_env (generate_distribution late_event_env.all_players) 10 1
        (initial_state "x.")).bind fun s =>
          (sample_step late_event_env (generate_distribution late_event_env.all_players)
            s).bind fun s1 =>
            (admit_step late_event_env 10 s1).map fun s2 =>
              (s2.admitted, s2.next_time, s2.active_players.map (fun e => e.2.events)))
        = some (2, 9223372036854775808,
            [[9223372036854775808], [9223372036854775808, 9223372036854775808]])
    ∧ ((9223372036854775808 : Nat) : Int) ≠ -9223372036854775808 := by
  refine ⟨?_, by decide!, by decide!, by decide⟩
  intro i pool t
  simp only [late_event_env, List.chain_cons, List.Chain.nil, and_true]
  constructor <;> omega

/-- C16 (amended): whenever an iteration of the loop admits a playback instance, the
admission time passed to it is 0 if the active set is empty at that moment, and otherwise
the key of the first entry of the active set, which is a smallest key, converted from
`int64_t` to `uint64_t`; it is the same number as that key whenever the key is not negative,
and so it is in every run in which each playback instance admitted at a time below 2^63
reports event times that are non-decreasing, never earlier than its admission time and
below 2^63. -/
theorem admission_time_smallest_key (E : Env) (max_object_count : Nat) (pfx : String)
    (n : Nat) (s s1 s2 : State)
    (hrun : iterate E (generate_distribution E.all_players) max_object_count n
      (initial_state pfx) = some s)
    (h1 : sample_step E (generate_distribution E.all_players) s = some s1)
    (h2 : admit_step E max_object_count s1 = some s2)
    (hadmitted : s2.admitted = s.admitted + 1) :
    (∃ i, s1.next_player = some i
      ∧ s2.next_time = admission_time s.active_players
      ∧ s2.active_players
          = mm_emplace
              (to_int64 (E.Playback_new i s.object_pool (admission_time s.active_players)).1.1)
              { id := s.admitted, player := i,
                events :=
                  (E.Playback_new i s.object_pool (admission_time s.active_players)).1.1 ::
                    (E.Playback_new i s.object_pool (admission_time s.active_players)).1.2 }
              s.active_players)
    ∧ (s.active_players = [] → admission_time s.active_players = 0)
    ∧ ∀ first rest, s.active_players = first :: rest →
        (∀ e ∈ s.active_players, first.1 ≤ e.1)
        ∧ admission_time s.active_players = to_uint64 first.1
        ∧ (0 ≤ first.1 → ((admission_time s.active_players : Nat) : Int) = first.1)
        ∧ (well_timed E → ((admission_time s.active_players : Nat) : Int) = first.1) := by
  have hs := iterate_sound E _ max_object_count n _ s (sound_initial pfx) hrun
  have e1 : s1.active_players = s.active_players ∧ s1.object_pool = s.object_pool
      ∧ s1.admitted = s.admitted := by
    rcases sample_step_spec E _ s s1 h1 with ⟨_, rfl⟩ | ⟨_, i, _, rfl⟩
    · exact ⟨rfl, rfl, rfl⟩
    · exact ⟨rfl, rfl, rfl⟩
  obtain ⟨ea, ep, ead⟩ := e1
  refine ⟨?_, ?_, ?_⟩
  · obtain ⟨i, x, hi, _, ⟨_, hs2⟩ | ⟨_, hs2⟩⟩ := admit_step_spec E max_object_count s1 s2 h2
    · rw [hs2, ead] at hadmitted
      omega
    · refine ⟨i, hi, ?_, ?_⟩
      · rw [hs2, ea]
      · rw [hs2, ea, ep, ead]
  · intro hnil
    rw [hnil]
    rfl
  · intro first rest hact
    obtain ⟨t, later, _, hk⟩ := hs.1 first (by rw [hact]; exact List.mem_cons_self _ _)
    have hr := to_int64_range t
    rw [← hk] at hr
    have hadm : admission_time s.active_players = to_uint64 first.1 := by
      rw [hact]
      rfl
    refine ⟨?_, hadm, ?_, ?_⟩
    · intro e he
      have hsorted := hs.2.1
      rw [hact] at hsorted he
      rcases List.mem_cons.mp he with rfl | he
      · exact le_refl _
      · exact (List.pairwise_cons.mp hsorted).1 e he
    · intro h0
      rw [hadm]
      exact to_uint64_of_nonneg first.1 h0 hr.2
    · intro hw
      have ho : s.in_order := by
        refine (iterate_invariant E _ max_object_count (fun a => a.sound ∧ a.in_order) ?_ n _ s
          ⟨sound_initial pfx, ?_⟩ hrun).2
        · intro a b ⟨ha, hoa⟩ hb
          exact ⟨body_sound E _ max_object_count a b ha hb,
            in_order_body E _ max_object_count a b hw ha hoa hb⟩
        · intro e he
          simp [initial_state] at he
      exact (admission_time_head s hs ho).2 first rest hact

/-- The second iteration with `two_event_env`, which admits instance 1 at time 20, the key
of the only entry of the active set, for C16. -/
theorem admission_time_smallest_key_witness :
    well_timed two_event_env
    ∧ ∃ s s1 s2 : State,
      iterate two_event_env (generate_distribution two_event_env.all_players) 10 1
          (initial_state "x.") = some s
      ∧ sample_step two_event_env (generate_distribution two_event_env.all_players) s = some s1
      ∧ admit_step two_event_env 10 s1 = some s2
      ∧ s2.admitted = s.admitted + 1
      ∧ s.active_players = [(20, ⟨0, 0, [20]⟩)]
      ∧ admission_time s.active_players = 20
      ∧ s2.next_time = 20
      ∧ ∀ first rest, s.active_players = first :: rest →
          (∀ e ∈ s.active_players, first.1 ≤ e.1)
          ∧ admission_time s.active_players = to_uint64 first.1
          ∧ (0 ≤ first.1 → ((admission_time s.active_players : Nat) : Int) = first.1)
          ∧ (well_timed two_event_env →
              ((admission_time s.active_players : Nat) : Int) = first.1) := by
  have hw : well_timed two_event_env := by
    intro i pool t ht
    simp only [two_event_env, List.chain_cons, List.Chain.nil, and_true, List.mem_cons,
      List.mem_singleton, List.not_mem_nil, or_false]
    refine ⟨⟨by omega, by omega⟩, ?_⟩
    intro x hx
    rcases hx with rfl | rfl <;> omega
  have hrun : iterate two_event_env (generate_distribution two_event_env.all_players) 10 1
      (initial_state "x.")
      = some
        { output := [Batch.header, Batch.opened 0, Batch.commands 0 10]
          object_pool := ⟨"x.", ["object"]⟩
          next_player := none
          next_time := 20
          rand_calls := 1
          admitted := 1
          active_players := [(20, ⟨0, 0, [20]⟩)] } := by decide!
  have h1 : sample_step two_event_env (generate_distribution two_event_env.all_players)
      { output := [Batch.header, Batch.opened 0, Batch.commands 0 10]
        object_pool := ⟨"x.", ["object"]⟩
        next_player := none
        next_time := 20
        rand_calls := 1
        admitted := 1
        active_players := [(20, ⟨0, 0, [20]⟩)] }
      = some
        { output := [Batch.header, Batch.opened 0, Batch.commands 0 10]
          object_pool := ⟨"x.", ["object"]⟩
          next_player := some 0
          next_time := 20
          rand_calls := 2
          admitted := 1
          active_players := [(20, ⟨0, 0, [20]⟩)] } := by decide!
  have h2 : admit_step two_event_env 10
      { output := [Batch.header, Batch.opened 0, Batch.commands 0 10]
        object_pool := ⟨"x.", ["object"]⟩
        next_player := some 0
        next_time := 20
        rand_calls := 2
        admitted := 1
        active_players := [(20, ⟨0, 0, [20]⟩)] }
      = some
        { output := [Batch.header, Batch.opened 0, Batch.commands 0 10, Batch.opened 1]
          object_pool := ⟨"x.", ["object", "object"]⟩
          next_player := none
          next_time := 20
          rand_calls := 2
          admitted := 2
          active_players := [(20, ⟨0, 0, [20]⟩), (20, ⟨1, 0, [20, 20]⟩)] } := by decide!
  have h := admission_time_smallest_key two_event_env 10 "x." 1 _ _ _ hrun h1 h2 rfl
  exact ⟨hw, _, _, _, hrun, h1, h2, rfl, rfl, by decide!, rfl, h.2.2⟩

/-! ## The gaps of the table in `double` arithmetic -/

theorem floor_log2_loop_eq (fuel n : Nat) (h : n ≤ fuel) :
    floor_log2_loop fuel n = Nat.log2 n := by
  induction fuel generalizing n with
  | zero =>
    have : n = 0 := by omega
    subst this
    simp [floor_log2_loop, Nat.log2]
  | succ fuel ih =>
    rw [floor_log2_loop, Nat.log2]
    by_cases h2 : n < 2
    · simp [h2, Nat.not_le.mpr h2]
    · have h3 : 2 ≤ n := by omega
      simp only [h2, h3, if_false, if_true]
      rw [ih (n / 2) (by omega)]

theorem floor_log2_eq (n : Nat) : floor_log2 n = Nat.log2 n :=
  floor_log2_loop_eq n n (le_refl n)

/-- The rounding `to_double` on values whose `double` is well known: 1/3 is
`0x3FD5555555555555`, 1/10 is `0x3FB999999999999A`, 0.1 + 0.2 is `0x3FD3333333333334`,
3/10 is `0x3FD3333333333333`, and `2 ^ 53 + 1` is a tie that goes to the even `2 ^ 53`. -/
theorem to_double_examples :
    to_double (1 / 3) = 6004799503160661 / 18014398509481984
    ∧ to_double (1 / 10) = 3602879701896397 / 36028797018963968
    ∧ to_double (to_double (1 / 10) + to_double (2 / 10))
        = 5404319552844596 / 18014398509481984
    ∧ to_double (3 / 10) = 5404319552844595 / 18014398509481984
    ∧ to_double (9007199254740993 : ℚ) = 9007199254740992
    ∧ to_double (9007199254740995 : ℚ) = 9007199254740996
    ∧ to_double 3 = 3 := by
  decide!

end GenIolog
